import Mathlib

/-
Verification of the reader-writer lock PiiReadWriteLock (PiiReadWriteLock.cpp).

All members of the shared state are read and written only while the internal
mutex is held, so an execution of the lock is a sequence of atomic
mutex-held sections.  Each such section of the source is embedded below as a
pure function on the lock state:

  - lockForReadEnter   : the body of lockForRead from taking the mutex up to
                         either returning (granted) or the first
                         readerWait.wait call (blocked, with iWaitingReaders
                         already incremented);
  - lockForReadWake    : one iteration of the wait loop after a wake:
                         decrement iWaitingReaders, re-test the guard, and
                         either finish or re-enter the wait;
  - lockForWriteEnter, lockForWriteWake : the same for lockForWrite, with
                         the value iRemainingReaders computed at entry and
                         carried unchanged across waits, as in the source;
  - unlockRead, unlockWrite : the release operations; the Q_ASSERT is
                         embedded as a guard that reports the violation
                         (returns none) before any mutation;
  - wakeUp             : the wake policy, returned as a value describing
                         which condition variable is signalled.

Qt handles are embedded as natural numbers; the null handle 0 is the value
the constructor and unlockWrite store in currentWriter, hence 0 stands for
"no writer".  Genuine thread handles are nonzero.  QHash<Qt::HANDLE,int> is
embedded as an association list whose insert replaces the value of an
existing key in place.  The C++ int counters are embedded as Int.

On top of the per-section functions, a small-step transition system (Step,
Reachable) runs any number of threads against one lock: a thread that is not
blocked may start or finish any operation, a blocked thread may retry its
wait loop whenever its guard allows (a superset of the wakes the wake policy
produces, which is sound for the safety claims).  The ghost lists `readers`
and `writers` record one entry per granted and unreleased hold, and release
steps fire only for a thread that actually holds (the acquire/release
pairing the claims assume).
-/

namespace PiiRW

/-- Qt::HANDLE of a thread; 0 is the null handle used for "no writer". -/
abbrev ThreadId := Nat

/-- QHash<Qt::HANDLE, int> as an association list. -/
abbrev ThreadHash := List (ThreadId × Int)

/-- QHash::find. -/
def hashFind : ThreadHash → ThreadId → Option Int
  | [], _ => none
  | (k, v) :: rest, t => if k = t then some v else hashFind rest t

/-- QHash::insert: replaces the value of an existing key in place,
appends a new key. -/
def hashInsert : ThreadHash → ThreadId → Int → ThreadHash
  | [], t, v => [(t, v)]
  | (k, x) :: rest, t, v =>
      if k = t then (k, v) :: rest else (k, x) :: hashInsert rest t v

/-- QHash::erase of the entry of a key. -/
def hashErase : ThreadHash → ThreadId → ThreadHash
  | [], _ => []
  | (k, x) :: rest, t => if k = t then rest else (k, x) :: hashErase rest t

/-- Sum of the per-thread hold counts stored in the hash. -/
def hashSum : ThreadHash → Int
  | [] => 0
  | (_, v) :: rest => v + hashSum rest

/-- The keys of the hash. -/
def hashKeys (h : ThreadHash) : List ThreadId := h.map Prod.fst

/-- The shared state of PiiReadWriteLock::Data. -/
structure LockState where
  bRecursive : Bool
  currentWriter : ThreadId
  iActiveReaders : Int
  iActiveWriters : Int
  iWaitingReaders : Int
  iWaitingWriters : Int
  hashCurrentReaders : ThreadHash
  deriving DecidableEq, Repr

/-- The constructor Data(bool recursive): all counters zero, null writer,
empty hash. -/
def mkLock (recursive : Bool) : LockState :=
  { bRecursive := recursive
    currentWriter := 0
    iActiveReaders := 0
    iActiveWriters := 0
    iWaitingReaders := 0
    iWaitingWriters := 0
    hashCurrentReaders := [] }

/-- The guard of the wait loop in lockForRead:
iActiveWriters > 0 || iWaitingWriters > 0. -/
def readGuard (s : LockState) : Prop :=
  0 < s.iActiveWriters ∨ 0 < s.iWaitingWriters

instance (s : LockState) : Decidable (readGuard s) := by
  unfold readGuard; infer_instance

/-- The guard of the wait loop in lockForWrite:
iActiveWriters > 0 || iActiveReaders > iRemainingReaders. -/
def writeGuard (s : LockState) (rem : Int) : Prop :=
  0 < s.iActiveWriters ∨ rem < s.iActiveReaders

instance (s : LockState) (rem : Int) : Decidable (writeGuard s rem) := by
  unfold writeGuard; infer_instance

/-- Outcome of one mutex-held section of lockForRead. -/
inductive ReadEnter where
  | granted (s : LockState)
  | blocked (s : LockState)
  deriving DecidableEq, Repr

/-- Outcome of one mutex-held section of lockForWrite; a blocked writer
remembers the iRemainingReaders value computed at entry. -/
inductive WriteEnter where
  | granted (s : LockState)
  | blocked (s : LockState) (rem : Int)
  deriving DecidableEq, Repr

/-- The tail of lockForRead once the wait loop has exited: in recursive mode
insert the entry of the calling thread with count 1, then increment
iActiveReaders. -/
def finishRead (s : LockState) (t : ThreadId) : LockState :=
  if s.bRecursive then
    { s with
      hashCurrentReaders := hashInsert s.hashCurrentReaders t 1
      iActiveReaders := s.iActiveReaders + 1 }
  else { s with iActiveReaders := s.iActiveReaders + 1 }

/-- lockForRead from taking the mutex to returning or first blocking.
In recursive mode the two self-escape checks come first; otherwise the
thread blocks exactly when the reader guard holds, incrementing
iWaitingReaders before the wait. -/
def lockForReadEnter (s : LockState) (t : ThreadId) : ReadEnter :=
  if s.bRecursive then
    match hashFind s.hashCurrentReaders t with
    | some n =>
        .granted { s with
          hashCurrentReaders := hashInsert s.hashCurrentReaders t (n + 1)
          iActiveReaders := s.iActiveReaders + 1 }
    | none =>
        if s.currentWriter = t then
          .granted { s with
            hashCurrentReaders := hashInsert s.hashCurrentReaders t 1
            iActiveReaders := s.iActiveReaders + 1 }
        else if readGuard s then
          .blocked { s with iWaitingReaders := s.iWaitingReaders + 1 }
        else .granted (finishRead s t)
  else
    if readGuard s then
      .blocked { s with iWaitingReaders := s.iWaitingReaders + 1 }
    else .granted (finishRead s t)

/-- One iteration of the reader wait loop after a wake: decrement
iWaitingReaders, re-test the guard, re-block or finish. -/
def lockForReadWake (s : LockState) (t : ThreadId) : ReadEnter :=
  let s0 := { s with iWaitingReaders := s.iWaitingReaders - 1 }
  if readGuard s0 then
    .blocked { s0 with iWaitingReaders := s0.iWaitingReaders + 1 }
  else .granted (finishRead s0 t)

/-- iRemainingReaders as computed at entry of lockForWrite: the count of the
read holds of the calling thread in recursive mode, 0 otherwise. -/
def ownReaders (s : LockState) (t : ThreadId) : Int :=
  if s.bRecursive then (hashFind s.hashCurrentReaders t).getD 0 else 0

/-- The tail of lockForWrite once the wait loop has exited: currentWriter is
assigned the local variable self, which holds the handle of the caller in
recursive mode and remains the null handle 0 otherwise. -/
def finishWrite (s : LockState) (t : ThreadId) : LockState :=
  { s with
    currentWriter := if s.bRecursive then t else 0
    iActiveWriters := s.iActiveWriters + 1 }

/-- lockForWrite from taking the mutex to returning or first blocking. -/
def lockForWriteEnter (s : LockState) (t : ThreadId) : WriteEnter :=
  if s.bRecursive = true ∧ s.currentWriter = t then
    .granted { s with iActiveWriters := s.iActiveWriters + 1 }
  else
    let rem := ownReaders s t
    if writeGuard s rem then
      .blocked { s with iWaitingWriters := s.iWaitingWriters + 1 } rem
    else .granted (finishWrite s t)

/-- One iteration of the writer wait loop after a wake, with the
iRemainingReaders value saved at entry. -/
def lockForWriteWake (s : LockState) (t : ThreadId) (rem : Int) : WriteEnter :=
  let s0 := { s with iWaitingWriters := s.iWaitingWriters - 1 }
  if writeGuard s0 rem then
    .blocked { s0 with iWaitingWriters := s0.iWaitingWriters + 1 } rem
  else .granted (finishWrite s0 t)

/-- Which waiters the wake policy signals. -/
inductive WakeAction where
  | wakeOneWriter
  | wakeAllReaders
  | wakeNone
  deriving DecidableEq, Repr

/-- PiiReadWriteLock::wakeUp: one blocked writer if any writer is waiting,
else all blocked readers if any reader is waiting, else nobody. -/
def wakeUp (s : LockState) : WakeAction :=
  if s.iWaitingWriters ≠ 0 then .wakeOneWriter
  else if s.iWaitingReaders ≠ 0 then .wakeAllReaders
  else .wakeNone

/-- The hash bookkeeping of unlockRead: in recursive mode the entry of the
calling thread is decremented in place and erased once the decremented value
is no longer positive; a missing entry, or non-recursive mode, changes
nothing. -/
def readRelHash (s : LockState) (t : ThreadId) : LockState :=
  if s.bRecursive then
    match hashFind s.hashCurrentReaders t with
    | some n =>
        if n - 1 ≤ 0 then
          { s with hashCurrentReaders := hashErase s.hashCurrentReaders t }
        else
          { s with hashCurrentReaders :=
              hashInsert s.hashCurrentReaders t (n - 1) }
    | none => s
  else s

/-- Decrement of iActiveReaders. -/
def decReaders (s1 : LockState) : LockState :=
  { s1 with iActiveReaders := s1.iActiveReaders - 1 }

/-- The tail of unlockRead: decrement iActiveReaders and, exactly when the
lock has become completely free, run the wake policy.  The option in the
result is some action exactly when wakeUp was invoked. -/
def unlockFinish (s1 : LockState) : LockState × Option WakeAction :=
  if (decReaders s1).iActiveReaders = 0 ∧ (decReaders s1).iActiveWriters = 0
  then (decReaders s1, some (wakeUp (decReaders s1)))
  else (decReaders s1, none)

/-- PiiReadWriteLock::unlockRead.  The Q_ASSERT(iActiveReaders > 0) is the
precondition guard: when it fails the call reports the violation (none) and
mutates nothing. -/
def unlockRead (s : LockState) (t : ThreadId) :
    Option (LockState × Option WakeAction) :=
  if 0 < s.iActiveReaders then some (unlockFinish (readRelHash s t))
  else none

/-- Decrement of iActiveWriters.  PiiReadWriteLock::unlockWrite follows: its
Q_ASSERT(iActiveWriters > 0) is the precondition guard, and the calling
thread plays no part in it, only the global counter is consulted. -/
def decWriters (s : LockState) : LockState :=
  { s with iActiveWriters := s.iActiveWriters - 1 }

/-- Reset of currentWriter to the null handle. -/
def clearWriter (s : LockState) : LockState := { s with currentWriter := 0 }

/-- PiiReadWriteLock::unlockWrite, continued: decrement iActiveWriters; when
the counter reaches zero, reset currentWriter and, if no readers remain, run
the wake policy. -/
def unlockWrite (s : LockState) (_t : ThreadId) :
    Option (LockState × Option WakeAction) :=
  if 0 < s.iActiveWriters then
    if (decWriters s).iActiveWriters = 0 then
      if (clearWriter (decWriters s)).iActiveReaders = 0 then
        some (clearWriter (decWriters s),
          some (wakeUp (clearWriter (decWriters s))))
      else some (clearWriter (decWriters s), none)
    else some (decWriters s, none)
  else none

/-- What a thread is doing, as far as the lock can tell: running outside a
wait (idle), blocked on readerWait, or blocked on writerWait with the
iRemainingReaders value computed at entry. -/
inductive TStatus where
  | idle
  | waitingRead
  | waitingWrite (rem : Int)
  deriving DecidableEq, Repr

/-- A global configuration: the lock state, the control point of every
thread, and ghost lists holding one entry per granted, unreleased read hold
and write hold. -/
structure Config where
  lock : LockState
  st : ThreadId → TStatus
  readers : List ThreadId
  writers : List ThreadId

/-- All threads idle, lock as constructed. -/
def initConfig (recursive : Bool) : Config :=
  { lock := mkLock recursive
    st := fun _ => .idle
    readers := []
    writers := [] }

/-- One atomic mutex-held section executed by one thread t.  Genuine thread
handles are nonzero (the null handle 0 stands for no writer).  A thread can
start an operation only while not blocked, a blocked thread can only retry
its own wait loop, and a release step fires only for a thread that holds a
matching ghost hold: executions respect acquire/release pairing. -/
inductive Step : Config → Config → Prop where
  | readGranted (c : Config) (t : ThreadId) (s' : LockState) :
      t ≠ 0 → c.st t = .idle → lockForReadEnter c.lock t = .granted s' →
      Step c { lock := s', st := c.st,
               readers := t :: c.readers, writers := c.writers }
  | readBlocked (c : Config) (t : ThreadId) (s' : LockState) :
      t ≠ 0 → c.st t = .idle → lockForReadEnter c.lock t = .blocked s' →
      Step c { lock := s', st := Function.update c.st t .waitingRead,
               readers := c.readers, writers := c.writers }
  | readWakeGranted (c : Config) (t : ThreadId) (s' : LockState) :
      t ≠ 0 → c.st t = .waitingRead → lockForReadWake c.lock t = .granted s' →
      Step c { lock := s', st := Function.update c.st t .idle,
               readers := t :: c.readers, writers := c.writers }
  | readWakeBlocked (c : Config) (t : ThreadId) (s' : LockState) :
      t ≠ 0 → c.st t = .waitingRead → lockForReadWake c.lock t = .blocked s' →
      Step c { lock := s', st := Function.update c.st t .waitingRead,
               readers := c.readers, writers := c.writers }
  | writeGranted (c : Config) (t : ThreadId) (s' : LockState) :
      t ≠ 0 → c.st t = .idle → lockForWriteEnter c.lock t = .granted s' →
      Step c { lock := s', st := c.st,
               readers := c.readers, writers := t :: c.writers }
  | writeBlocked (c : Config) (t : ThreadId) (s' : LockState) (rem : Int) :
      t ≠ 0 → c.st t = .idle → lockForWriteEnter c.lock t = .blocked s' rem →
      Step c { lock := s', st := Function.update c.st t (.waitingWrite rem),
               readers := c.readers, writers := c.writers }
  | writeWakeGranted (c : Config) (t : ThreadId) (rem : Int) (s' : LockState) :
      t ≠ 0 → c.st t = .waitingWrite rem →
      lockForWriteWake c.lock t rem = .granted s' →
      Step c { lock := s', st := Function.update c.st t .idle,
               readers := c.readers, writers := t :: c.writers }
  | writeWakeBlocked (c : Config) (t : ThreadId) (rem : Int) (s' : LockState) :
      t ≠ 0 → c.st t = .waitingWrite rem →
      lockForWriteWake c.lock t rem = .blocked s' rem →
      Step c { lock := s', st := Function.update c.st t (.waitingWrite rem),
               readers := c.readers, writers := c.writers }
  | releaseRead (c : Config) (t : ThreadId) (s' : LockState)
      (a : Option WakeAction) :
      t ≠ 0 → c.st t = .idle → t ∈ c.readers →
      unlockRead c.lock t = some (s', a) →
      Step c { lock := s', st := c.st,
               readers := c.readers.erase t, writers := c.writers }
  | releaseWrite (c : Config) (t : ThreadId) (s' : LockState)
      (a : Option WakeAction) :
      t ≠ 0 → c.st t = .idle → t ∈ c.writers →
      unlockWrite c.lock t = some (s', a) →
      Step c { lock := s', st := c.st,
               readers := c.readers, writers := c.writers.erase t }

/-- The configurations an execution of the lock can reach, starting from a
lock constructed in the given mode. -/
inductive Reachable : Bool → Config → Prop where
  | init (recursive : Bool) : Reachable recursive (initConfig recursive)
  | step {recursive : Bool} {c c' : Config} :
      Reachable recursive c → Step c c' → Reachable recursive c'

/-- The inductive invariant of reachable configurations.  The ghost lists
are tied to the counters (iActiveReaders and iActiveWriters are the numbers
of outstanding holds), all write holds belong to one thread, a reader
distinct from every writer never coexists with a writer, currentWriter
follows the write holds in recursive mode and stays the null handle in
non-recursive mode, the hash stores exactly the per-thread read-hold counts
in recursive mode, and a blocked thread remembers consistent data. -/
structure Inv (c : Config) : Prop where
  readersLen : c.lock.iActiveReaders = (c.readers.length : Int)
  writersLen : c.lock.iActiveWriters = (c.writers.length : Int)
  readersNZ : ∀ t ∈ c.readers, t ≠ 0
  writersNZ : ∀ t ∈ c.writers, t ≠ 0
  writersSame : ∀ t ∈ c.writers, ∀ u ∈ c.writers, t = u
  writerReader : ∀ t ∈ c.writers, ∀ u ∈ c.readers, u = t
  cwWriters : c.lock.bRecursive = true → ∀ t ∈ c.writers, c.lock.currentWriter = t
  cwZero : c.writers = [] → c.lock.currentWriter = 0
  cwNonRec : c.lock.bRecursive = false → c.lock.currentWriter = 0
  hashNodup : (hashKeys c.lock.hashCurrentReaders).Nodup
  hashInv : c.lock.bRecursive = true → ∀ t,
      hashFind c.lock.hashCurrentReaders t =
        (if c.readers.count t = 0 then none else some (c.readers.count t : Int))
  blockedRead : ∀ t, c.st t = .waitingRead → c.lock.bRecursive = true →
      c.readers.count t = 0
  blockedWrite : ∀ t rem, c.st t = .waitingWrite rem →
      rem = (if c.lock.bRecursive then (c.readers.count t : Int) else 0)

/-- A configuration of a recursive lock after thread 1 acquired read twice
and then promoted to a write hold; used to exercise theorems on a
nontrivial reachable configuration. -/
def promoConfig : Config :=
  { lock :=
      { bRecursive := true
        currentWriter := 1
        iActiveReaders := 2
        iActiveWriters := 1
        iWaitingReaders := 0
        iWaitingWriters := 0
        hashCurrentReaders := [(1, 2)] }
    st := fun _ => .idle
    readers := [1, 1]
    writers := [1] }

/-- A configuration of a non-recursive lock after thread 1 acquired the
write lock: iActiveWriters is 1 while currentWriter is still the null
handle. -/
def nonRecWriterConfig : Config :=
  { lock := { mkLock false with iActiveWriters := 1 }
    st := fun _ => .idle
    readers := []
    writers := [1] }

/-- A recursive lock in which thread 1 holds one read: the state after
lockForRead by thread 1 on a fresh recursive lock. -/
def oneReaderLock : LockState :=
  { bRecursive := true
    currentWriter := 0
    iActiveReaders := 1
    iActiveWriters := 0
    iWaitingReaders := 0
    iWaitingWriters := 0
    hashCurrentReaders := [(1, 1)] }

/-- lockForRead restricted to calls that are granted without blocking. -/
def lockForReadNB (s : LockState) (t : ThreadId) : Option LockState :=
  match lockForReadEnter s t with
  | .granted g => some g
  | .blocked _ => none

/-- unlockRead, keeping only the resulting state. -/
def unlockReadNB (s : LockState) (t : ThreadId) : Option LockState :=
  (unlockRead s t).map Prod.fst

/-- N successive non-blocking lockForRead calls by one thread. -/
def acqRead (t : ThreadId) : Nat → LockState → Option LockState
  | 0, s => some s
  | n + 1, s => (lockForReadNB s t).bind (acqRead t n)

/-- N successive unlockRead calls by one thread, performed after the ones
already counted. -/
def relRead (t : ThreadId) : Nat → LockState → Option LockState
  | 0, s => some s
  | n + 1, s => (relRead t n s).bind (fun g => unlockReadNB g t)

/-- Looking up the key just inserted yields the inserted value. -/
theorem hashFind_insert_self (h : ThreadHash) (t : ThreadId) (v : Int) :
    hashFind (hashInsert h t v) t = some v := by
  induction h with
  | nil => simp [hashInsert, hashFind]
  | cons kv rest ih =>
      obtain ⟨k, x⟩ := kv
      by_cases hk : k = t
      · simp [hashInsert, hashFind, hk]
      · simp [hashInsert, hashFind, hk, ih]

/-- Inserting one key leaves the lookup of any other key unchanged. -/
theorem hashFind_insert_ne (h : ThreadHash) {t u : ThreadId} (hne : u ≠ t)
    (v : Int) : hashFind (hashInsert h t v) u = hashFind h u := by
  induction h with
  | nil => simp [hashInsert, hashFind, Ne.symm hne]
  | cons kv rest ih =>
      obtain ⟨k, x⟩ := kv
      by_cases hk : k = t
      · subst hk
        simp [hashInsert, hashFind, Ne.symm hne]
      · by_cases hu : k = u
        · simp [hashInsert, hashFind, hk, hu, hne]
        · simp [hashInsert, hashFind, hk, hu, ih]

/-- Erasing one key leaves the lookup of any other key unchanged. -/
theorem hashFind_erase_ne (h : ThreadHash) {t u : ThreadId} (hne : u ≠ t) :
    hashFind (hashErase h t) u = hashFind h u := by
  induction h with
  | nil => simp [hashErase]
  | cons kv rest ih =>
      obtain ⟨k, x⟩ := kv
      by_cases hk : k = t
      · subst hk
        simp [hashErase, hashFind, Ne.symm hne]
      · by_cases hu : k = u
        · simp [hashErase, hashFind, hk, hu, hne]
        · simp [hashErase, hashFind, hk, hu, ih]

/-- A lookup fails exactly when the key is absent. -/
theorem hashFind_eq_none_iff (h : ThreadHash) (t : ThreadId) :
    hashFind h t = none ↔ t ∉ hashKeys h := by
  induction h with
  | nil => simp [hashFind, hashKeys]
  | cons kv rest ih =>
      obtain ⟨k, x⟩ := kv
      by_cases hk : k = t
      · simp [hashFind, hashKeys, hk]
      · simp [hashFind, hashKeys, hk, Ne.symm hk] at ih ⊢
        exact ih

/-- The keys after an erase are a sublist of the keys before. -/
theorem hashKeys_erase_sublist (h : ThreadHash) (t : ThreadId) :
    List.Sublist (hashKeys (hashErase h t)) (hashKeys h) := by
  induction h with
  | nil => simp [hashErase, hashKeys]
  | cons kv rest ih =>
      obtain ⟨k, x⟩ := kv
      by_cases hk : k = t
      · simp only [hashErase, if_pos hk, hashKeys, List.map_cons]
        exact List.sublist_cons_self k _
      · simpa [hashErase, hashKeys, hk] using List.Sublist.cons₂ k ih

/-- Membership in the keys after an insert. -/
theorem mem_hashKeys_insert {h : ThreadHash} {t u : ThreadId} {v : Int} :
    u ∈ hashKeys (hashInsert h t v) ↔ u ∈ hashKeys h ∨ u = t := by
  induction h with
  | nil => simp [hashInsert, hashKeys]
  | cons kv rest ih =>
      obtain ⟨k, x⟩ := kv
      by_cases hk : k = t
      · subst hk
        have h1 : hashInsert ((k, x) :: rest) k v = (k, v) :: rest := by
          simp [hashInsert]
        rw [h1]
        simp only [hashKeys, List.map_cons, List.mem_cons]
        tauto
      · have h1 : hashInsert ((k, x) :: rest) t v =
            (k, x) :: hashInsert rest t v := by
          simp [hashInsert, hk]
        rw [h1]
        simp only [hashKeys, List.map_cons, List.mem_cons] at ih ⊢
        rw [ih]
        tauto

/-- Inserting preserves distinctness of the keys. -/
theorem hashNodup_insert (h : ThreadHash) (t : ThreadId) (v : Int)
    (hn : (hashKeys h).Nodup) : (hashKeys (hashInsert h t v)).Nodup := by
  induction h with
  | nil => simp [hashInsert, hashKeys]
  | cons kv rest ih =>
      obtain ⟨k, x⟩ := kv
      simp only [hashKeys, List.map_cons, List.nodup_cons] at hn
      by_cases hk : k = t
      · subst hk
        have h1 : hashInsert ((k, x) :: rest) k v = (k, v) :: rest := by
          simp [hashInsert]
        rw [h1]
        simp only [hashKeys, List.map_cons, List.nodup_cons]
        exact hn
      · have h1 : hashInsert ((k, x) :: rest) t v =
            (k, x) :: hashInsert rest t v := by
          simp [hashInsert, hk]
        rw [h1]
        have h2 : k ∉ hashKeys (hashInsert rest t v) := by
          rw [mem_hashKeys_insert]
          rintro (hmem | heq)
          · exact hn.1 hmem
          · exact hk heq
        simp only [hashKeys, List.map_cons, List.nodup_cons]
        exact ⟨h2, ih hn.2⟩

/-- Erasing preserves distinctness of the keys. -/
theorem hashNodup_erase (h : ThreadHash) (t : ThreadId)
    (hn : (hashKeys h).Nodup) : (hashKeys (hashErase h t)).Nodup :=
  hn.sublist (hashKeys_erase_sublist h t)

/-- With distinct keys, erasing a key removes it from the lookup. -/
theorem hashFind_erase_self (h : ThreadHash) (t : ThreadId)
    (hn : (hashKeys h).Nodup) : hashFind (hashErase h t) t = none := by
  induction h with
  | nil => simp [hashErase, hashFind]
  | cons kv rest ih =>
      obtain ⟨k, x⟩ := kv
      simp only [hashKeys, List.map_cons, List.nodup_cons] at hn
      by_cases hk : k = t
      · subst hk
        have h1 : hashErase ((k, x) :: rest) k = rest := by
          simp [hashErase]
        rw [h1, hashFind_eq_none_iff]
        exact hn.1
      · simp [hashErase, hashFind, hk, ih hn.2]

/-- Re-inserting the value already stored is the identity. -/
theorem hashInsert_find_self {h : ThreadHash} {t : ThreadId} {v : Int}
    (hf : hashFind h t = some v) : hashInsert h t v = h := by
  induction h with
  | nil => simp [hashFind] at hf
  | cons kv rest ih =>
      obtain ⟨k, x⟩ := kv
      by_cases hk : k = t
      · rw [hashFind, if_pos hk] at hf
        obtain rfl : x = v := Option.some.inj hf
        simp [hashInsert, hk]
      · rw [hashFind, if_neg hk] at hf
        simp [hashInsert, hk, ih hf]

/-- A second insert of the same key overwrites the first. -/
theorem hashInsert_hashInsert (h : ThreadHash) (t : ThreadId) (v w : Int) :
    hashInsert (hashInsert h t v) t w = hashInsert h t w := by
  induction h with
  | nil => simp [hashInsert]
  | cons kv rest ih =>
      obtain ⟨k, x⟩ := kv
      by_cases hk : k = t
      · simp [hashInsert, hk]
      · simp [hashInsert, hk, ih]

/-- Erasing a freshly inserted key gives back the original hash. -/
theorem hashErase_hashInsert {h : ThreadHash} {t : ThreadId} (v : Int)
    (hf : hashFind h t = none) : hashErase (hashInsert h t v) t = h := by
  induction h with
  | nil => simp [hashInsert, hashErase]
  | cons kv rest ih =>
      obtain ⟨k, x⟩ := kv
      by_cases hk : k = t
      · rw [hashFind, if_pos hk] at hf
        cases hf
      · rw [hashFind, if_neg hk] at hf
        simp [hashInsert, hashErase, hk, ih hf]


/-- The reader guard ignores iWaitingReaders. -/
theorem readGuard_update_wr (s : LockState) (x : Int) :
    readGuard { s with iWaitingReaders := x } ↔ readGuard s := Iff.rfl

/-- The writer guard ignores iWaitingWriters. -/
theorem writeGuard_update_ww (s : LockState) (x rem : Int) :
    writeGuard { s with iWaitingWriters := x } rem ↔ writeGuard s rem :=
  Iff.rfl

/-- Inversion of a granted lockForReadEnter: either the re-entry escape, the
promotion escape, or the guard was false and the plain path ran. -/
theorem lockForReadEnter_granted {s : LockState} {t : ThreadId}
    {g : LockState} (h : lockForReadEnter s t = .granted g) :
    (∃ n, s.bRecursive = true ∧ hashFind s.hashCurrentReaders t = some n ∧
      g = { s with
        hashCurrentReaders := hashInsert s.hashCurrentReaders t (n + 1)
        iActiveReaders := s.iActiveReaders + 1 }) ∨
    (s.bRecursive = true ∧ hashFind s.hashCurrentReaders t = none ∧
      s.currentWriter = t ∧
      g = { s with
        hashCurrentReaders := hashInsert s.hashCurrentReaders t 1
        iActiveReaders := s.iActiveReaders + 1 }) ∨
    ((s.bRecursive = true → hashFind s.hashCurrentReaders t = none ∧
        s.currentWriter ≠ t) ∧ ¬ readGuard s ∧ g = finishRead s t) := by
  unfold lockForReadEnter at h
  by_cases hrec : s.bRecursive = true
  · rw [if_pos hrec] at h
    cases hf : hashFind s.hashCurrentReaders t with
    | some n =>
        rw [hf] at h
        cases h
        exact Or.inl ⟨n, hrec, rfl, rfl⟩
    | none =>
        rw [hf] at h
        by_cases hcw : s.currentWriter = t
        · rw [if_pos hcw] at h
          cases h
          exact Or.inr (Or.inl ⟨hrec, rfl, hcw, rfl⟩)
        · rw [if_neg hcw] at h
          by_cases hg : readGuard s
          · rw [if_pos hg] at h
            cases h
          · rw [if_neg hg] at h
            cases h
            exact Or.inr (Or.inr ⟨fun _ => ⟨rfl, hcw⟩, hg, rfl⟩)
  · rw [if_neg hrec] at h
    by_cases hg : readGuard s
    · rw [if_pos hg] at h
      cases h
    · rw [if_neg hg] at h
      cases h
      exact Or.inr (Or.inr ⟨fun hr => absurd hr hrec, hg, rfl⟩)

/-- Inversion of a blocked lockForReadEnter: both escapes failed, the guard
held, and iWaitingReaders was incremented before the wait. -/
theorem lockForReadEnter_blocked {s : LockState} {t : ThreadId}
    {b : LockState} (h : lockForReadEnter s t = .blocked b) :
    (s.bRecursive = true → hashFind s.hashCurrentReaders t = none ∧
      s.currentWriter ≠ t) ∧ readGuard s ∧
    b = { s with iWaitingReaders := s.iWaitingReaders + 1 } := by
  unfold lockForReadEnter at h
  by_cases hrec : s.bRecursive = true
  · rw [if_pos hrec] at h
    cases hf : hashFind s.hashCurrentReaders t with
    | some n => rw [hf] at h; cases h
    | none =>
        rw [hf] at h
        by_cases hcw : s.currentWriter = t
        · rw [if_pos hcw] at h
          cases h
        · rw [if_neg hcw] at h
          by_cases hg : readGuard s
          · rw [if_pos hg] at h
            cases h
            exact ⟨fun _ => ⟨rfl, hcw⟩, hg, rfl⟩
          · rw [if_neg hg] at h
            cases h
  · rw [if_neg hrec] at h
    by_cases hg : readGuard s
    · rw [if_pos hg] at h
      cases h
      exact ⟨fun hr => absurd hr hrec, hg, rfl⟩
    · rw [if_neg hg] at h
      cases h

/-- Inversion of a granted wake of a blocked reader: the guard is false and
the plain grant path runs on the state with iWaitingReaders decremented. -/
theorem lockForReadWake_granted {s : LockState} {t : ThreadId}
    {g : LockState} (h : lockForReadWake s t = .granted g) :
    ¬ readGuard s ∧
    g = finishRead { s with iWaitingReaders := s.iWaitingReaders - 1 } t := by
  unfold lockForReadWake at h
  by_cases hg : readGuard s
  · rw [if_pos ((readGuard_update_wr s _).mpr hg)] at h
    cases h
  · rw [if_neg (fun hc => hg ((readGuard_update_wr s _).mp hc))] at h
    cases h
    exact ⟨hg, rfl⟩

/-- A woken reader that finds the guard still true re-enters the wait with
no net change to the lock state. -/
theorem lockForReadWake_blocked {s : LockState} {t : ThreadId}
    {b : LockState} (h : lockForReadWake s t = .blocked b) :
    readGuard s ∧ b = s := by
  unfold lockForReadWake at h
  by_cases hg : readGuard s
  · rw [if_pos ((readGuard_update_wr s _).mpr hg)] at h
    cases h
    refine ⟨hg, ?_⟩
    have h1 : s.iWaitingReaders - 1 + 1 = s.iWaitingReaders := by omega
    rw [h1]
  · rw [if_neg (fun hc => hg ((readGuard_update_wr s _).mp hc))] at h
    cases h

/-- Inversion of a granted lockForWriteEnter: the recursion escape or the
plain path with a false guard. -/
theorem lockForWriteEnter_granted {s : LockState} {t : ThreadId}
    {g : LockState} (h : lockForWriteEnter s t = .granted g) :
    (s.bRecursive = true ∧ s.currentWriter = t ∧
      g = { s with iActiveWriters := s.iActiveWriters + 1 }) ∨
    (¬ (s.bRecursive = true ∧ s.currentWriter = t) ∧
      ¬ writeGuard s (ownReaders s t) ∧ g = finishWrite s t) := by
  unfold lockForWriteEnter at h
  by_cases hrw : s.bRecursive = true ∧ s.currentWriter = t
  · rw [if_pos hrw] at h
    cases h
    exact Or.inl ⟨hrw.1, hrw.2, rfl⟩
  · rw [if_neg hrw] at h
    by_cases hg : writeGuard s (ownReaders s t)
    · rw [if_pos hg] at h
      cases h
    · rw [if_neg hg] at h
      cases h
      exact Or.inr ⟨hrw, hg, rfl⟩

/-- Inversion of a blocked lockForWriteEnter: the recursion escape failed,
the saved iRemainingReaders is the one computed at entry, the guard held,
and iWaitingWriters was incremented before the wait. -/
theorem lockForWriteEnter_blocked {s : LockState} {t : ThreadId}
    {b : LockState} {rem : Int} (h : lockForWriteEnter s t = .blocked b rem) :
    ¬ (s.bRecursive = true ∧ s.currentWriter = t) ∧ rem = ownReaders s t ∧
    writeGuard s rem ∧
    b = { s with iWaitingWriters := s.iWaitingWriters + 1 } := by
  unfold lockForWriteEnter at h
  by_cases hrw : s.bRecursive = true ∧ s.currentWriter = t
  · rw [if_pos hrw] at h
    cases h
  · rw [if_neg hrw] at h
    by_cases hg : writeGuard s (ownReaders s t)
    · rw [if_pos hg] at h
      cases h
      exact ⟨hrw, rfl, hg, rfl⟩
    · rw [if_neg hg] at h
      cases h

/-- Inversion of a granted wake of a blocked writer. -/
theorem lockForWriteWake_granted {s : LockState} {t : ThreadId} {rem : Int}
    {g : LockState} (h : lockForWriteWake s t rem = .granted g) :
    ¬ writeGuard s rem ∧
    g = finishWrite { s with iWaitingWriters := s.iWaitingWriters - 1 } t := by
  unfold lockForWriteWake at h
  by_cases hg : writeGuard s rem
  · rw [if_pos ((writeGuard_update_ww s _ rem).mpr hg)] at h
    cases h
  · rw [if_neg (fun hc => hg ((writeGuard_update_ww s _ rem).mp hc))] at h
    cases h
    exact ⟨hg, rfl⟩

/-- A woken writer that finds the guard still true re-enters the wait with
no net change to the lock state. -/
theorem lockForWriteWake_blocked {s : LockState} {t : ThreadId} {rem : Int}
    {b : LockState} {rem2 : Int}
    (h : lockForWriteWake s t rem = .blocked b rem2) :
    writeGuard s rem ∧ b = s ∧ rem2 = rem := by
  unfold lockForWriteWake at h
  by_cases hg : writeGuard s rem
  · rw [if_pos ((writeGuard_update_ww s _ rem).mpr hg)] at h
    cases h
    refine ⟨hg, ?_, rfl⟩
    have h1 : s.iWaitingWriters - 1 + 1 = s.iWaitingWriters := by omega
    rw [h1]
  · rw [if_neg (fun hc => hg ((writeGuard_update_ww s _ rem).mp hc))] at h
    cases h

/-- readRelHash changes at most the hash of the state. -/
theorem readRelHash_eq (s : LockState) (t : ThreadId) :
    ∃ hsh, readRelHash s t = { s with hashCurrentReaders := hsh } := by
  unfold readRelHash
  split
  · split
    · split
      · exact ⟨_, rfl⟩
      · exact ⟨_, rfl⟩
    · exact ⟨s.hashCurrentReaders, rfl⟩
  · exact ⟨s.hashCurrentReaders, rfl⟩

/-- readRelHash in non-recursive mode, or with no entry, changes nothing. -/
theorem readRelHash_id {s : LockState} {t : ThreadId}
    (h : s.bRecursive = false ∨ hashFind s.hashCurrentReaders t = none) :
    readRelHash s t = s := by
  unfold readRelHash
  rcases h with h | h
  · rw [if_neg (by simp [h])]
  · by_cases hrec : s.bRecursive = true
    · rw [if_pos hrec, h]
    · rw [if_neg hrec]

/-- readRelHash on a present entry: decrement in place, erasing at zero. -/
theorem readRelHash_found {s : LockState} {t : ThreadId} {n : Int}
    (hrec : s.bRecursive = true)
    (hf : hashFind s.hashCurrentReaders t = some n) :
    readRelHash s t =
      if n - 1 ≤ 0 then
        { s with hashCurrentReaders := hashErase s.hashCurrentReaders t }
      else
        { s with hashCurrentReaders :=
            hashInsert s.hashCurrentReaders t (n - 1) } := by
  unfold readRelHash
  rw [if_pos hrec, hf]

/-- The fields of finishRead other than the hash and iActiveReaders. -/
theorem finishRead_fields (s : LockState) (t : ThreadId) :
    (finishRead s t).bRecursive = s.bRecursive ∧
    (finishRead s t).currentWriter = s.currentWriter ∧
    (finishRead s t).iActiveWriters = s.iActiveWriters ∧
    (finishRead s t).iWaitingReaders = s.iWaitingReaders ∧
    (finishRead s t).iWaitingWriters = s.iWaitingWriters := by
  unfold finishRead
  split <;> exact ⟨rfl, rfl, rfl, rfl, rfl⟩

/-- finishRead increments iActiveReaders. -/
theorem finishRead_iActiveReaders (s : LockState) (t : ThreadId) :
    (finishRead s t).iActiveReaders = s.iActiveReaders + 1 := by
  unfold finishRead
  split <;> rfl

/-- finishRead inserts the entry of the caller in recursive mode only. -/
theorem finishRead_hash (s : LockState) (t : ThreadId) :
    (finishRead s t).hashCurrentReaders =
      if s.bRecursive then hashInsert s.hashCurrentReaders t 1
      else s.hashCurrentReaders := by
  unfold finishRead
  split <;> rfl

/-- Inversion of a successful unlockRead: the precondition held and the new
state is the hash bookkeeping plus the decrement of iActiveReaders. -/
theorem unlockRead_some {s : LockState} {t : ThreadId} {g : LockState}
    {a : Option WakeAction} (h : unlockRead s t = some (g, a)) :
    0 < s.iActiveReaders ∧
    g = { readRelHash s t with iActiveReaders := s.iActiveReaders - 1 } := by
  unfold unlockRead at h
  by_cases hr : 0 < s.iActiveReaders
  · rw [if_pos hr] at h
    refine ⟨hr, ?_⟩
    obtain ⟨hsh, he⟩ := readRelHash_eq s t
    rw [he] at h ⊢
    unfold unlockFinish at h
    split at h
    · simp only [Option.some.injEq, Prod.mk.injEq] at h
      exact h.1.symm
    · simp only [Option.some.injEq, Prod.mk.injEq] at h
      exact h.1.symm
  · rw [if_neg hr] at h
    cases h

/-- Inversion of a successful unlockWrite: the precondition held,
iActiveWriters is decremented, currentWriter is cleared exactly when the
counter reaches zero, and nothing else changes. -/
theorem unlockWrite_some {s : LockState} {t : ThreadId} {g : LockState}
    {a : Option WakeAction} (h : unlockWrite s t = some (g, a)) :
    0 < s.iActiveWriters ∧
    g = { s with
      iActiveWriters := s.iActiveWriters - 1
      currentWriter :=
        if s.iActiveWriters - 1 = 0 then 0 else s.currentWriter } := by
  unfold unlockWrite at h
  by_cases hw : 0 < s.iActiveWriters
  · rw [if_pos hw] at h
    refine ⟨hw, ?_⟩
    by_cases hz : (decWriters s).iActiveWriters = 0
    · rw [if_pos hz] at h
      have hz2 : s.iActiveWriters - 1 = 0 := hz
      rw [if_pos hz2]
      split at h
      · simp only [Option.some.injEq, Prod.mk.injEq] at h
        exact h.1.symm
      · simp only [Option.some.injEq, Prod.mk.injEq] at h
        exact h.1.symm
    · rw [if_neg hz] at h
      have hz2 : ¬ s.iActiveWriters - 1 = 0 := hz
      rw [if_neg hz2]
      simp only [Option.some.injEq, Prod.mk.injEq] at h
      exact h.1.symm
  · rw [if_neg hw] at h
    cases h


/-- In recursive mode the iRemainingReaders computed at entry is the count
of ghost read holds of the calling thread. -/
theorem ownReaders_eq {c : Config} (hI : Inv c)
    (hrec : c.lock.bRecursive = true) (t : ThreadId) :
    ownReaders c.lock t = (c.readers.count t : Int) := by
  unfold ownReaders
  rw [if_pos hrec, hI.hashInv hrec t]
  by_cases h0 : c.readers.count t = 0
  · rw [if_pos h0, h0]
    rfl
  · rw [if_neg h0]
    rfl

/-- In non-recursive mode the iRemainingReaders computed at entry is 0. -/
theorem ownReaders_nonrec {s : LockState} (hrec : s.bRecursive = false)
    (t : ThreadId) : ownReaders s t = 0 := by
  unfold ownReaders
  rw [if_neg (by simp [hrec])]

/-- A list whose length is bounded by the multiplicity of one element
consists of that element only. -/
theorem all_eq_of_length_le_count {l : List ThreadId} {t : ThreadId}
    (h : (l.length : Int) ≤ (l.count t : Int)) : ∀ u ∈ l, u = t := by
  have h2 : l.length ≤ l.count t := by exact_mod_cast h
  have h3 : l.count t = l.length :=
    le_antisymm (List.count_le_length t l) h2
  intro u hu
  exact (List.count_eq_length.mp h3 u hu).symm

/-- An Int-nonpositive length means the empty list. -/
theorem eq_nil_of_length_nonpos {l : List ThreadId}
    (h : (l.length : Int) ≤ 0) : l = [] := by
  have h2 : l.length = 0 := by omega
  exact List.length_eq_zero.mp h2

/-- The invariant holds in the initial configuration. -/
theorem inv_init (recursive : Bool) : Inv (initConfig recursive) := by
  refine ⟨?_, ?_, ?_, ?_, ?_, ?_, ?_, ?_, ?_, ?_, ?_, ?_, ?_⟩
  · rfl
  · rfl
  · intro t ht
    cases ht
  · intro t ht
    cases ht
  · intro t ht
    cases ht
  · intro t ht u hu
    cases ht
  · intro hrec t ht
    cases ht
  · intro _
    rfl
  · intro _
    rfl
  · simp [initConfig, mkLock, hashKeys]
  · intro hrec t
    simp [initConfig, mkLock, hashFind]
  · intro t h
    cases h
  · intro t rem h
    cases h


/-- Granting one more read hold to thread t preserves the hash description:
the new stored count is one more than the ghost multiplicity of t. -/
theorem hashInv_insert_grant {h : ThreadHash} {l : List ThreadId}
    {t : ThreadId} {m : Int}
    (hinv : ∀ u, hashFind h u =
      (if l.count u = 0 then none else some (l.count u : Int)))
    (hm : m = (l.count t : Int) + 1) :
    ∀ u, hashFind (hashInsert h t m) u =
      (if (t :: l).count u = 0 then none
       else some ((t :: l).count u : Int)) := by
  intro u
  by_cases hu : u = t
  · subst hu
    rw [hashFind_insert_self, List.count_cons_self, if_neg (by omega)]
    have hm2 : m = ((l.count u + 1 : Nat) : Int) := by
      push_cast
      omega
    rw [hm2]
  · have hc : (t :: l).count u = l.count u := by
      simp [List.count_cons, hu]
    rw [hashFind_insert_ne h hu, hinv u, hc]

/-- The multiplicity of a thread distinct from the new holder is unchanged. -/
theorem count_cons_ne {l : List ThreadId} {t u : ThreadId} (hu : u ≠ t) :
    (t :: l).count u = l.count u := by
  simp [List.count_cons, hu]

/-- Step case: a granted lockForReadEnter preserves the invariant. -/
theorem inv_readGranted {c : Config} {t : ThreadId} {g : LockState}
    (hI : Inv c) (hnz : t ≠ 0) (hst : c.st t = .idle)
    (hop : lockForReadEnter c.lock t = .granted g) :
    Inv { lock := g, st := c.st,
          readers := t :: c.readers, writers := c.writers } := by
  have hlen := hI.readersLen
  rcases lockForReadEnter_granted hop with
    ⟨n, hrec, hf, rfl⟩ | ⟨hrec, hf, hcw, rfl⟩ | ⟨hesc, hg, rfl⟩
  · -- re-entry escape: the entry of t exists, so t already holds reads
    have hfi := hI.hashInv hrec t
    rw [hf] at hfi
    have hcnt : c.readers.count t ≠ 0 := by
      by_cases h0 : c.readers.count t = 0
      · rw [if_pos h0] at hfi
        cases hfi
      · exact h0
    have hn : n = (c.readers.count t : Int) := by
      rw [if_neg hcnt] at hfi
      exact Option.some.inj hfi
    have hmem : t ∈ c.readers := List.count_pos_iff.mp (by omega)
    refine ⟨?_, hI.writersLen, ?_, hI.writersNZ, hI.writersSame, ?_, ?_, ?_,
      ?_, ?_, ?_, ?_, ?_⟩
    · show c.lock.iActiveReaders + 1 = ((t :: c.readers).length : Int)
      rw [List.length_cons]
      push_cast
      omega
    · intro u hu
      rcases List.mem_cons.mp hu with rfl | hu2
      · exact hnz
      · exact hI.readersNZ u hu2
    · intro w hw u hu
      rcases List.mem_cons.mp hu with rfl | hu2
      · exact hI.writerReader w hw u hmem
      · exact hI.writerReader w hw u hu2
    · exact hI.cwWriters
    · exact hI.cwZero
    · exact hI.cwNonRec
    · exact hashNodup_insert _ t _ hI.hashNodup
    · intro hrec2 u
      exact hashInv_insert_grant (hI.hashInv hrec2) (by omega) u
    · intro u hu hrec2
      have hut : u ≠ t := by
        intro he
        rw [he, hst] at hu
        cases hu
      rw [count_cons_ne hut]
      exact hI.blockedRead u hu hrec2
    · intro u rem hu
      have hut : u ≠ t := by
        intro he
        rw [he, hst] at hu
        cases hu
      rw [count_cons_ne hut]
      exact hI.blockedWrite u rem hu
  · -- promotion escape: t is the current writer and gets a first read hold
    have hfi := hI.hashInv hrec t
    rw [hf] at hfi
    have hcnt : c.readers.count t = 0 := by
      by_cases h0 : c.readers.count t = 0
      · exact h0
      · rw [if_neg h0] at hfi
        cases hfi
    refine ⟨?_, hI.writersLen, ?_, hI.writersNZ, hI.writersSame, ?_, ?_, ?_,
      ?_, ?_, ?_, ?_, ?_⟩
    · show c.lock.iActiveReaders + 1 = ((t :: c.readers).length : Int)
      rw [List.length_cons]
      push_cast
      omega
    · intro u hu
      rcases List.mem_cons.mp hu with rfl | hu2
      · exact hnz
      · exact hI.readersNZ u hu2
    · intro w hw u hu
      rcases List.mem_cons.mp hu with rfl | hu2
      · exact ((hI.cwWriters hrec w hw).symm.trans hcw).symm
      · exact hI.writerReader w hw u hu2
    · exact hI.cwWriters
    · exact hI.cwZero
    · exact hI.cwNonRec
    · exact hashNodup_insert _ t _ hI.hashNodup
    · intro hrec2 u
      exact hashInv_insert_grant (hI.hashInv hrec2) (by omega) u
    · intro u hu hrec2
      have hut : u ≠ t := by
        intro he
        rw [he, hst] at hu
        cases hu
      rw [count_cons_ne hut]
      exact hI.blockedRead u hu hrec2
    · intro u rem hu
      have hut : u ≠ t := by
        intro he
        rw [he, hst] at hu
        cases hu
      rw [count_cons_ne hut]
      exact hI.blockedWrite u rem hu
  · -- plain path: the guard is false, hence no writer is active
    have hW0 : c.lock.iActiveWriters ≤ 0 := by
      unfold readGuard at hg
      omega
    have hwnil : c.writers = [] := by
      apply eq_nil_of_length_nonpos
      rw [← hI.writersLen]
      exact hW0
    obtain ⟨hb, hcw2, haw, hwr2, hww⟩ := finishRead_fields c.lock t
    refine ⟨?_, ?_, ?_, ?_, ?_, ?_, ?_, ?_, ?_, ?_, ?_, ?_, ?_⟩
    · rw [finishRead_iActiveReaders, List.length_cons]
      push_cast
      omega
    · rw [haw]
      exact hI.writersLen
    · intro u hu
      rcases List.mem_cons.mp hu with rfl | hu2
      · exact hnz
      · exact hI.readersNZ u hu2
    · rw [hwnil]
      intro u hu
      cases hu
    · rw [hwnil]
      intro u hu
      cases hu
    · rw [hwnil]
      intro u hu
      cases hu
    · rw [hb, hcw2, hwnil]
      intro _ u hu
      cases hu
    · intro hwe
      rw [hcw2]
      exact hI.cwZero hwe
    · rw [hb, hcw2]
      exact hI.cwNonRec
    · rw [finishRead_hash]
      by_cases hrec : c.lock.bRecursive = true
      · rw [if_pos hrec]
        exact hashNodup_insert _ t _ hI.hashNodup
      · rw [if_neg hrec]
        exact hI.hashNodup
    · rw [hb]
      intro hrec u
      rw [finishRead_hash, if_pos hrec]
      have hcnt : c.readers.count t = 0 := by
        have hfi := hI.hashInv hrec t
        rw [(hesc hrec).1] at hfi
        by_cases h0 : c.readers.count t = 0
        · exact h0
        · rw [if_neg h0] at hfi
          cases hfi
      exact hashInv_insert_grant (hI.hashInv hrec) (by omega) u
    · rw [hb]
      intro u hu hrec2
      have hut : u ≠ t := by
        intro he
        rw [he, hst] at hu
        cases hu
      rw [count_cons_ne hut]
      exact hI.blockedRead u hu hrec2
    · rw [hb]
      intro u rem hu
      have hut : u ≠ t := by
        intro he
        rw [he, hst] at hu
        cases hu
      rw [count_cons_ne hut]
      exact hI.blockedWrite u rem hu


/-- Step case: a blocked lockForReadEnter preserves the invariant. -/
theorem inv_readBlocked {c : Config} {t : ThreadId} {b : LockState}
    (hI : Inv c) (hst : c.st t = .idle)
    (hop : lockForReadEnter c.lock t = .blocked b) :
    Inv { lock := b, st := Function.update c.st t .waitingRead,
          readers := c.readers, writers := c.writers } := by
  obtain ⟨hesc, hg, rfl⟩ := lockForReadEnter_blocked hop
  refine ⟨hI.readersLen, hI.writersLen, hI.readersNZ, hI.writersNZ,
    hI.writersSame, hI.writerReader, hI.cwWriters, hI.cwZero, hI.cwNonRec,
    hI.hashNodup, hI.hashInv, ?_, ?_⟩
  · dsimp only
    intro u hu hrec
    by_cases hut : u = t
    · subst hut
      have hfi := hI.hashInv hrec u
      rw [(hesc hrec).1] at hfi
      by_cases h0 : c.readers.count u = 0
      · exact h0
      · rw [if_neg h0] at hfi
        cases hfi
    · rw [Function.update_noteq hut] at hu
      exact hI.blockedRead u hu hrec
  · dsimp only
    intro u rem hu
    by_cases hut : u = t
    · subst hut
      rw [Function.update_same] at hu
      cases hu
    · rw [Function.update_noteq hut] at hu
      exact hI.blockedWrite u rem hu

/-- Step case: a woken reader that is granted preserves the invariant. -/
theorem inv_readWakeGranted {c : Config} {t : ThreadId} {g : LockState}
    (hI : Inv c) (hnz : t ≠ 0) (hst : c.st t = .waitingRead)
    (hop : lockForReadWake c.lock t = .granted g) :
    Inv { lock := g, st := Function.update c.st t .idle,
          readers := t :: c.readers, writers := c.writers } := by
  obtain ⟨hg, rfl⟩ := lockForReadWake_granted hop
  have hW0 : c.lock.iActiveWriters ≤ 0 := by
    unfold readGuard at hg
    omega
  have hwnil : c.writers = [] := by
    apply eq_nil_of_length_nonpos
    rw [← hI.writersLen]
    exact hW0
  obtain ⟨hb, hcw2, haw, hwr2, hww⟩ :=
    finishRead_fields { c.lock with
      iWaitingReaders := c.lock.iWaitingReaders - 1 } t
  refine ⟨?_, ?_, ?_, ?_, ?_, ?_, ?_, ?_, ?_, ?_, ?_, ?_, ?_⟩
  · rw [finishRead_iActiveReaders, List.length_cons]
    push_cast
    have := hI.readersLen
    omega
  · rw [haw]
    exact hI.writersLen
  · intro u hu
    rcases List.mem_cons.mp hu with rfl | hu2
    · exact hnz
    · exact hI.readersNZ u hu2
  · rw [hwnil]
    intro u hu
    cases hu
  · rw [hwnil]
    intro u hu
    cases hu
  · rw [hwnil]
    intro u hu
    cases hu
  · rw [hwnil]
    intro _ u hu
    cases hu
  · intro hwe
    rw [hcw2]
    exact hI.cwZero hwe
  · rw [hb, hcw2]
    exact hI.cwNonRec
  · rw [finishRead_hash]
    by_cases hrec : c.lock.bRecursive = true
    · rw [if_pos hrec]
      exact hashNodup_insert _ t _ hI.hashNodup
    · rw [if_neg hrec]
      exact hI.hashNodup
  · rw [hb]
    intro hrec u
    rw [finishRead_hash, if_pos hrec]
    have hcnt : c.readers.count t = 0 := hI.blockedRead t hst hrec
    refine hashInv_insert_grant (hI.hashInv hrec) ?_ u
    rw [hcnt]
    rfl
  · dsimp only
    rw [hb]
    intro u hu hrec2
    have hut : u ≠ t := by
      intro he
      rw [he, Function.update_same] at hu
      cases hu
    rw [Function.update_noteq hut] at hu
    rw [count_cons_ne hut]
    exact hI.blockedRead u hu hrec2
  · dsimp only
    rw [hb]
    intro u rem hu
    have hut : u ≠ t := by
      intro he
      rw [he, Function.update_same] at hu
      cases hu
    rw [Function.update_noteq hut] at hu
    rw [count_cons_ne hut]
    exact hI.blockedWrite u rem hu

/-- Step case: a woken reader that re-blocks preserves the invariant. -/
theorem inv_readWakeBlocked {c : Config} {t : ThreadId} {b : LockState}
    (hI : Inv c) (hst : c.st t = .waitingRead)
    (hop : lockForReadWake c.lock t = .blocked b) :
    Inv { lock := b, st := Function.update c.st t .waitingRead,
          readers := c.readers, writers := c.writers } := by
  obtain ⟨hg, rfl⟩ := lockForReadWake_blocked hop
  refine ⟨hI.readersLen, hI.writersLen, hI.readersNZ, hI.writersNZ,
    hI.writersSame, hI.writerReader, hI.cwWriters, hI.cwZero, hI.cwNonRec,
    hI.hashNodup, hI.hashInv, ?_, ?_⟩
  · dsimp only
    intro u hu hrec
    by_cases hut : u = t
    · subst hut
      exact hI.blockedRead u hst hrec
    · rw [Function.update_noteq hut] at hu
      exact hI.blockedRead u hu hrec
  · dsimp only
    intro u rem hu
    by_cases hut : u = t
    · subst hut
      rw [Function.update_same] at hu
      cases hu
    · rw [Function.update_noteq hut] at hu
      exact hI.blockedWrite u rem hu


/-- Step case: a granted lockForWriteEnter preserves the invariant. -/
theorem inv_writeGranted {c : Config} {t : ThreadId} {g : LockState}
    (hI : Inv c) (hnz : t ≠ 0) (hst : c.st t = .idle)
    (hop : lockForWriteEnter c.lock t = .granted g) :
    Inv { lock := g, st := c.st,
          readers := c.readers, writers := t :: c.writers } := by
  rcases lockForWriteEnter_granted hop with ⟨hrec, hcw, rfl⟩ | ⟨hnrw, hg, rfl⟩
  · -- recursion escape: t is already the writer
    have hwne : c.writers ≠ [] := by
      intro hnil
      exact hnz (hcw.symm.trans (hI.cwZero hnil))
    obtain ⟨w0, hw0⟩ := List.exists_mem_of_ne_nil c.writers hwne
    have hw0t : w0 = t := (hI.cwWriters hrec w0 hw0).symm.trans hcw
    have hallw : ∀ w ∈ c.writers, w = t := by
      intro w hw
      exact (hI.cwWriters hrec w hw).symm.trans hcw
    refine ⟨hI.readersLen, ?_, hI.readersNZ, ?_, ?_, ?_, ?_, ?_, ?_,
      hI.hashNodup, hI.hashInv, hI.blockedRead, hI.blockedWrite⟩
    · show c.lock.iActiveWriters + 1 = ((t :: c.writers).length : Int)
      rw [List.length_cons]
      push_cast
      have := hI.writersLen
      omega
    · intro u hu
      rcases List.mem_cons.mp hu with rfl | hu2
      · exact hnz
      · exact hI.writersNZ u hu2
    · intro w hw u hu
      rcases List.mem_cons.mp hw with rfl | hw2
      · rcases List.mem_cons.mp hu with rfl | hu2
        · rfl
        · exact (hallw u hu2).symm
      · rcases List.mem_cons.mp hu with rfl | hu2
        · exact hallw w hw2
        · exact hI.writersSame w hw2 u hu2
    · intro w hw u hu
      rcases List.mem_cons.mp hw with rfl | hw2
      · exact (hI.writerReader w0 hw0 u hu).trans hw0t
      · exact hI.writerReader w hw2 u hu
    · intro hrec2 w hw
      rcases List.mem_cons.mp hw with rfl | hw2
      · exact hcw
      · exact hI.cwWriters hrec w hw2
    · intro hnil
      exact absurd hnil (List.cons_ne_nil t c.writers)
    · intro hnr
      rw [hrec] at hnr
      cases hnr
  · -- plain path: no active writer and only the holds of t remain
    unfold writeGuard at hg
    push_neg at hg
    obtain ⟨hW0, hR⟩ := hg
    have hwnil : c.writers = [] := by
      apply eq_nil_of_length_nonpos
      rw [← hI.writersLen]
      exact hW0
    have hall : ∀ u ∈ c.readers, u = t := by
      cases hb : c.lock.bRecursive with
      | true =>
          rw [ownReaders_eq hI hb t] at hR
          apply all_eq_of_length_le_count
          rw [← hI.readersLen]
          exact hR
      | false =>
          rw [ownReaders_nonrec hb t] at hR
          have hrnil : c.readers = [] := by
            apply eq_nil_of_length_nonpos
            rw [← hI.readersLen]
            exact hR
          rw [hrnil]
          intro u hu
          cases hu
    refine ⟨hI.readersLen, ?_, hI.readersNZ, ?_, ?_, ?_, ?_, ?_, ?_,
      hI.hashNodup, hI.hashInv, hI.blockedRead, hI.blockedWrite⟩
    · show c.lock.iActiveWriters + 1 = ((t :: c.writers).length : Int)
      rw [List.length_cons]
      push_cast
      have := hI.writersLen
      omega
    · intro u hu
      rcases List.mem_cons.mp hu with rfl | hu2
      · exact hnz
      · exact hI.writersNZ u hu2
    · intro w hw u hu
      rcases List.mem_cons.mp hw with rfl | hw2
      · rcases List.mem_cons.mp hu with rfl | hu2
        · rfl
        · rw [hwnil] at hu2
          cases hu2
      · rw [hwnil] at hw2
        cases hw2
    · intro w hw u hu
      rcases List.mem_cons.mp hw with rfl | hw2
      · exact hall u hu
      · rw [hwnil] at hw2
        cases hw2
    · intro hrec2 w hw
      have hrec3 : c.lock.bRecursive = true := hrec2
      rcases List.mem_cons.mp hw with rfl | hw2
      · show (if c.lock.bRecursive then w else 0) = w
        rw [if_pos hrec3]
      · rw [hwnil] at hw2
        cases hw2
    · intro hnil
      exact absurd hnil (List.cons_ne_nil t c.writers)
    · intro hnr
      have hnr2 : c.lock.bRecursive = false := hnr
      show (if c.lock.bRecursive then t else 0) = 0
      rw [hnr2]
      rfl

/-- Step case: a blocked lockForWriteEnter preserves the invariant. -/
theorem inv_writeBlocked {c : Config} {t : ThreadId} {b : LockState}
    {rem : Int} (hI : Inv c) (hst : c.st t = .idle)
    (hop : lockForWriteEnter c.lock t = .blocked b rem) :
    Inv { lock := b, st := Function.update c.st t (.waitingWrite rem),
          readers := c.readers, writers := c.writers } := by
  obtain ⟨hnrw, hrem, hg, rfl⟩ := lockForWriteEnter_blocked hop
  refine ⟨hI.readersLen, hI.writersLen, hI.readersNZ, hI.writersNZ,
    hI.writersSame, hI.writerReader, hI.cwWriters, hI.cwZero, hI.cwNonRec,
    hI.hashNodup, hI.hashInv, ?_, ?_⟩
  · dsimp only
    intro u hu hrec
    by_cases hut : u = t
    · subst hut
      rw [Function.update_same] at hu
      cases hu
    · rw [Function.update_noteq hut] at hu
      exact hI.blockedRead u hu hrec
  · dsimp only
    intro u rem0 hu
    by_cases hut : u = t
    · subst hut
      rw [Function.update_same] at hu
      obtain rfl : rem0 = rem := (TStatus.waitingWrite.inj hu).symm
      cases hb : c.lock.bRecursive with
      | true =>
          rw [if_pos rfl, hrem]
          exact ownReaders_eq hI hb u
      | false =>
          rw [if_neg Bool.false_ne_true, hrem]
          exact ownReaders_nonrec hb u
    · rw [Function.update_noteq hut] at hu
      exact hI.blockedWrite u rem0 hu

/-- Step case: a woken writer that is granted preserves the invariant. -/
theorem inv_writeWakeGranted {c : Config} {t : ThreadId} {rem : Int}
    {g : LockState} (hI : Inv c) (hnz : t ≠ 0)
    (hst : c.st t = .waitingWrite rem)
    (hop : lockForWriteWake c.lock t rem = .granted g) :
    Inv { lock := g, st := Function.update c.st t .idle,
          readers := c.readers, writers := t :: c.writers } := by
  obtain ⟨hg, rfl⟩ := lockForWriteWake_granted hop
  have hrem := hI.blockedWrite t rem hst
  unfold writeGuard at hg
  push_neg at hg
  obtain ⟨hW0, hR⟩ := hg
  have hwnil : c.writers = [] := by
    apply eq_nil_of_length_nonpos
    rw [← hI.writersLen]
    exact hW0
  have hall : ∀ u ∈ c.readers, u = t := by
    cases hb : c.lock.bRecursive with
    | true =>
        rw [hrem, if_pos hb] at hR
        apply all_eq_of_length_le_count
        rw [← hI.readersLen]
        exact hR
    | false =>
        rw [hrem, if_neg (by rw [hb]; exact Bool.false_ne_true)] at hR
        have hrnil : c.readers = [] := by
          apply eq_nil_of_length_nonpos
          rw [← hI.readersLen]
          exact hR
        rw [hrnil]
        intro u hu
        cases hu
  refine ⟨hI.readersLen, ?_, hI.readersNZ, ?_, ?_, ?_, ?_, ?_, ?_,
    hI.hashNodup, hI.hashInv, ?_, ?_⟩
  · show c.lock.iActiveWriters + 1 = ((t :: c.writers).length : Int)
    rw [List.length_cons]
    push_cast
    have := hI.writersLen
    omega
  · intro u hu
    rcases List.mem_cons.mp hu with rfl | hu2
    · exact hnz
    · exact hI.writersNZ u hu2
  · intro w hw u hu
    rcases List.mem_cons.mp hw with rfl | hw2
    · rcases List.mem_cons.mp hu with rfl | hu2
      · rfl
      · rw [hwnil] at hu2
        cases hu2
    · rw [hwnil] at hw2
      cases hw2
  · intro w hw u hu
    rcases List.mem_cons.mp hw with rfl | hw2
    · exact hall u hu
    · rw [hwnil] at hw2
      cases hw2
  · intro hrec2 w hw
    have hrec3 : c.lock.bRecursive = true := hrec2
    rcases List.mem_cons.mp hw with rfl | hw2
    · show (if c.lock.bRecursive then w else 0) = w
      rw [if_pos hrec3]
    · rw [hwnil] at hw2
      cases hw2
  · intro hnil
    exact absurd hnil (List.cons_ne_nil t c.writers)
  · intro hnr
    have hnr2 : c.lock.bRecursive = false := hnr
    show (if c.lock.bRecursive then t else 0) = 0
    rw [hnr2]
    rfl
  · dsimp only
    intro u hu hrec
    have hut : u ≠ t := by
      intro he
      rw [he, Function.update_same] at hu
      cases hu
    rw [Function.update_noteq hut] at hu
    exact hI.blockedRead u hu hrec
  · dsimp only
    intro u rem0 hu
    have hut : u ≠ t := by
      intro he
      rw [he, Function.update_same] at hu
      cases hu
    rw [Function.update_noteq hut] at hu
    exact hI.blockedWrite u rem0 hu

/-- Step case: a woken writer that re-blocks preserves the invariant. -/
theorem inv_writeWakeBlocked {c : Config} {t : ThreadId} {rem : Int}
    {b : LockState} (hI : Inv c) (hst : c.st t = .waitingWrite rem)
    (hop : lockForWriteWake c.lock t rem = .blocked b rem) :
    Inv { lock := b, st := Function.update c.st t (.waitingWrite rem),
          readers := c.readers, writers := c.writers } := by
  obtain ⟨hg, rfl, -⟩ := lockForWriteWake_blocked hop
  refine ⟨hI.readersLen, hI.writersLen, hI.readersNZ, hI.writersNZ,
    hI.writersSame, hI.writerReader, hI.cwWriters, hI.cwZero, hI.cwNonRec,
    hI.hashNodup, hI.hashInv, ?_, ?_⟩
  · dsimp only
    intro u hu hrec
    by_cases hut : u = t
    · subst hut
      rw [Function.update_same] at hu
      cases hu
    · rw [Function.update_noteq hut] at hu
      exact hI.blockedRead u hu hrec
  · dsimp only
    intro u rem0 hu
    by_cases hut : u = t
    · subst hut
      rw [Function.update_same] at hu
      obtain rfl : rem0 = rem := (TStatus.waitingWrite.inj hu).symm
      exact hI.blockedWrite u rem0 hst
    · rw [Function.update_noteq hut] at hu
      exact hI.blockedWrite u rem0 hu


/-- Step case: a successful unlockRead by a holding thread preserves the
invariant. -/
theorem inv_releaseRead {c : Config} {t : ThreadId} {g : LockState}
    {a : Option WakeAction} (hI : Inv c) (hst : c.st t = .idle)
    (hmem : t ∈ c.readers) (hop : unlockRead c.lock t = some (g, a)) :
    Inv { lock := g, st := c.st,
          readers := c.readers.erase t, writers := c.writers } := by
  obtain ⟨hr, rfl⟩ := unlockRead_some hop
  have hlp : 0 < c.readers.length := List.length_pos_of_mem hmem
  have hlen : ((c.readers.erase t).length : Int) =
      (c.readers.length : Int) - 1 := by
    rw [List.length_erase_of_mem hmem]
    omega
  have hcountu : ∀ u : ThreadId, u ≠ t →
      (c.readers.erase t).count u = c.readers.count u := by
    intro u hu
    exact List.count_erase_of_ne hu c.readers
  have hcountt : (c.readers.erase t).count t = c.readers.count t - 1 :=
    List.count_erase_self t c.readers
  cases hb : c.lock.bRecursive with
  | false =>
      rw [readRelHash_id (Or.inl hb)]
      refine ⟨?_, hI.writersLen, ?_, hI.writersNZ, hI.writersSame, ?_,
        hI.cwWriters, hI.cwZero, hI.cwNonRec, hI.hashNodup, ?_, ?_, ?_⟩
      · show c.lock.iActiveReaders - 1 = ((c.readers.erase t).length : Int)
        rw [hlen, ← hI.readersLen]
      · intro u hu
        exact hI.readersNZ u (List.mem_of_mem_erase hu)
      · intro w hw u hu
        exact hI.writerReader w hw u (List.mem_of_mem_erase hu)
      · intro hrec u
        exact absurd (hb ▸ hrec) Bool.false_ne_true
      · intro u hu hrec
        exact absurd (hb ▸ hrec) Bool.false_ne_true
      · intro u rem0 hu
        have h2 := hI.blockedWrite u rem0 hu
        rw [if_neg (by rw [hb]; exact Bool.false_ne_true)] at h2
        rw [if_neg (by rw [hb]; exact Bool.false_ne_true)]
        exact h2
  | true =>
      have hcnt : 0 < c.readers.count t := List.count_pos_iff.mpr hmem
      have hfind := hI.hashInv hb t
      rw [if_neg (by omega)] at hfind
      rw [readRelHash_found hb hfind]
      by_cases h1 : (c.readers.count t : Int) - 1 ≤ 0
      · -- last hold of t: the entry is erased
        have hc1 : c.readers.count t = 1 := by omega
        rw [if_pos h1]
        refine ⟨?_, hI.writersLen, ?_, hI.writersNZ, hI.writersSame, ?_,
          hI.cwWriters, hI.cwZero, hI.cwNonRec, ?_, ?_, ?_, ?_⟩
        · show c.lock.iActiveReaders - 1 = ((c.readers.erase t).length : Int)
          rw [hlen, ← hI.readersLen]
        · intro u hu
          exact hI.readersNZ u (List.mem_of_mem_erase hu)
        · intro w hw u hu
          exact hI.writerReader w hw u (List.mem_of_mem_erase hu)
        · exact hashNodup_erase _ t hI.hashNodup
        · intro hrec u
          by_cases hu : u = t
          · subst hu
            rw [hashFind_erase_self _ u hI.hashNodup, hcountt, hc1]
            rfl
          · rw [hashFind_erase_ne _ hu, hcountu u hu]
            exact hI.hashInv hb u
        · intro u hu hrec
          have hut : u ≠ t := by
            intro he
            rw [he, hst] at hu
            cases hu
          rw [hcountu u hut]
          exact hI.blockedRead u hu hb
        · intro u rem0 hu
          have hut : u ≠ t := by
            intro he
            rw [he, hst] at hu
            cases hu
          rw [hcountu u hut]
          exact hI.blockedWrite u rem0 hu
      · -- t keeps holds: the entry is decremented in place
        have hc2 : 2 ≤ c.readers.count t := by omega
        rw [if_neg h1]
        refine ⟨?_, hI.writersLen, ?_, hI.writersNZ, hI.writersSame, ?_,
          hI.cwWriters, hI.cwZero, hI.cwNonRec, ?_, ?_, ?_, ?_⟩
        · show c.lock.iActiveReaders - 1 = ((c.readers.erase t).length : Int)
          rw [hlen, ← hI.readersLen]
        · intro u hu
          exact hI.readersNZ u (List.mem_of_mem_erase hu)
        · intro w hw u hu
          exact hI.writerReader w hw u (List.mem_of_mem_erase hu)
        · exact hashNodup_insert _ t _ hI.hashNodup
        · intro hrec u
          by_cases hu : u = t
          · subst hu
            rw [hashFind_insert_self, hcountt]
            rw [if_neg (by omega)]
            congr 1
            have : 1 ≤ c.readers.count u := by omega
            push_cast [this]
            ring
          · rw [hashFind_insert_ne _ hu, hcountu u hu]
            exact hI.hashInv hb u
        · intro u hu hrec
          have hut : u ≠ t := by
            intro he
            rw [he, hst] at hu
            cases hu
          rw [hcountu u hut]
          exact hI.blockedRead u hu hb
        · intro u rem0 hu
          have hut : u ≠ t := by
            intro he
            rw [he, hst] at hu
            cases hu
          rw [hcountu u hut]
          exact hI.blockedWrite u rem0 hu

/-- Step case: a successful unlockWrite by a holding thread preserves the
invariant. -/
theorem inv_releaseWrite {c : Config} {t : ThreadId} {g : LockState}
    {a : Option WakeAction} (hI : Inv c) (_hst : c.st t = .idle)
    (hmem : t ∈ c.writers) (hop : unlockWrite c.lock t = some (g, a)) :
    Inv { lock := g, st := c.st,
          readers := c.readers, writers := c.writers.erase t } := by
  obtain ⟨hw, rfl⟩ := unlockWrite_some hop
  have hlp : 0 < c.writers.length := List.length_pos_of_mem hmem
  have hlen : ((c.writers.erase t).length : Int) =
      (c.writers.length : Int) - 1 := by
    rw [List.length_erase_of_mem hmem]
    omega
  refine ⟨hI.readersLen, ?_, hI.readersNZ, ?_, ?_, ?_, ?_, ?_, ?_,
    hI.hashNodup, hI.hashInv, hI.blockedRead, hI.blockedWrite⟩
  · show c.lock.iActiveWriters - 1 = ((c.writers.erase t).length : Int)
    rw [hlen, ← hI.writersLen]
  · intro u hu
    exact hI.writersNZ u (List.mem_of_mem_erase hu)
  · intro w hw2 u hu
    exact hI.writersSame w (List.mem_of_mem_erase hw2) u
      (List.mem_of_mem_erase hu)
  · intro w hw2 u hu
    exact hI.writerReader w (List.mem_of_mem_erase hw2) u hu
  · intro hrec w hw2
    by_cases hz : c.lock.iActiveWriters - 1 = 0
    · exfalso
      have hl1 : (c.writers.erase t).length = 0 := by
        have := hI.writersLen
        omega
      rw [List.length_eq_zero.mp hl1] at hw2
      cases hw2
    · show (if c.lock.iActiveWriters - 1 = 0 then 0
            else c.lock.currentWriter) = w
      rw [if_neg hz]
      exact hI.cwWriters hrec w (List.mem_of_mem_erase hw2)
  · intro hnil
    dsimp only at hnil
    have hl1 : (c.writers.erase t).length = 0 := by
      rw [hnil]
      rfl
    have hz : c.lock.iActiveWriters - 1 = 0 := by
      have := hI.writersLen
      omega
    show (if c.lock.iActiveWriters - 1 = 0 then 0
          else c.lock.currentWriter) = 0
    rw [if_pos hz]
  · intro hnr
    show (if c.lock.iActiveWriters - 1 = 0 then 0
          else c.lock.currentWriter) = 0
    by_cases hz : c.lock.iActiveWriters - 1 = 0
    · rw [if_pos hz]
    · rw [if_neg hz]
      exact hI.cwNonRec hnr


/-- Every step of the transition system preserves the invariant. -/
theorem inv_step {c c2 : Config} (hI : Inv c) (hs : Step c c2) : Inv c2 := by
  cases hs with
  | readGranted t g hnz hst hop => exact inv_readGranted hI hnz hst hop
  | readBlocked t b hnz hst hop => exact inv_readBlocked hI hst hop
  | readWakeGranted t g hnz hst hop =>
      exact inv_readWakeGranted hI hnz hst hop
  | readWakeBlocked t b hnz hst hop => exact inv_readWakeBlocked hI hst hop
  | writeGranted t g hnz hst hop => exact inv_writeGranted hI hnz hst hop
  | writeBlocked t b rem hnz hst hop => exact inv_writeBlocked hI hst hop
  | writeWakeGranted t rem g hnz hst hop =>
      exact inv_writeWakeGranted hI hnz hst hop
  | writeWakeBlocked t rem b hnz hst hop =>
      exact inv_writeWakeBlocked hI hst hop
  | releaseRead t g a hnz hst hmem hop =>
      exact inv_releaseRead hI hst hmem hop
  | releaseWrite t g a hnz hst hmem hop =>
      exact inv_releaseWrite hI hst hmem hop

/-- The invariant holds in every reachable configuration. -/
theorem reachable_inv {recursive : Bool} {c : Config}
    (h : Reachable recursive c) : Inv c := by
  induction h with
  | init => exact inv_init _
  | step hr hs ih => exact inv_step ih hs

/-- finishRead in recursive mode, written as one record update. -/
theorem finishRead_rec {s : LockState} (t : ThreadId)
    (hrec : s.bRecursive = true) :
    finishRead s t = { s with
      hashCurrentReaders := hashInsert s.hashCurrentReaders t 1
      iActiveReaders := s.iActiveReaders + 1 } := by
  unfold finishRead
  rw [if_pos hrec]

/-- A thread with an entry in the hash is granted at once. -/
theorem lockForReadNB_entry {s : LockState} {t : ThreadId} {n : Int}
    (hrec : s.bRecursive = true)
    (hf : hashFind s.hashCurrentReaders t = some n) :
    lockForReadNB s t = some { s with
      hashCurrentReaders := hashInsert s.hashCurrentReaders t (n + 1)
      iActiveReaders := s.iActiveReaders + 1 } := by
  unfold lockForReadNB lockForReadEnter
  rw [if_pos hrec, hf]

/-- Computation of unlockReadNB when the precondition holds. -/
theorem unlockReadNB_eq {s : LockState} (t : ThreadId)
    (h : 0 < s.iActiveReaders) :
    unlockReadNB s t =
      some { readRelHash s t with
        iActiveReaders := s.iActiveReaders - 1 } := by
  unfold unlockReadNB unlockRead
  rw [if_pos h]
  obtain ⟨hsh, he⟩ := readRelHash_eq s t
  rw [he]
  unfold unlockFinish
  split
  · rfl
  · rfl

/-- A thread with an entry in the hash can always re-acquire at once. -/
theorem lockForReadNB_isSome_of_entry {s : LockState} {t : ThreadId}
    {n : Int} (hrec : s.bRecursive = true)
    (hf : hashFind s.hashCurrentReaders t = some n) :
    (lockForReadNB s t).isSome = true := by
  rw [lockForReadNB_entry hrec hf]
  rfl

/-- Computation of unlockReadNB on a state that stores count n for the
caller. -/
theorem unlockReadNB_entry {s : LockState} {t : ThreadId} {n : Int}
    (hrec : s.bRecursive = true) (hra : 0 < s.iActiveReaders)
    (hf : hashFind s.hashCurrentReaders t = some n) :
    unlockReadNB s t =
      some (if n - 1 ≤ 0 then
        { s with
          hashCurrentReaders := hashErase s.hashCurrentReaders t
          iActiveReaders := s.iActiveReaders - 1 }
      else
        { s with
          hashCurrentReaders := hashInsert s.hashCurrentReaders t (n - 1)
          iActiveReaders := s.iActiveReaders - 1 }) := by
  rw [unlockReadNB_eq t hra, readRelHash_found hrec hf]
  by_cases h1 : n - 1 ≤ 0
  · rw [if_pos h1, if_pos h1]
  · rw [if_neg h1, if_neg h1]

/-- One acquire-release round by one thread restores the state exactly. -/
theorem readRound_id {s : LockState} {t : ThreadId} {g : LockState}
    (hrec : s.bRecursive = true) (hra : 0 ≤ s.iActiveReaders)
    (hvals : ∀ m, hashFind s.hashCurrentReaders t = some m → 1 ≤ m)
    (hacq : lockForReadNB s t = some g) :
    unlockReadNB g t = some s := by
  have hg : lockForReadEnter s t = .granted g := by
    unfold lockForReadNB at hacq
    cases he : lockForReadEnter s t with
    | granted g2 =>
        rw [he] at hacq
        exact (Option.some.inj hacq) ▸ rfl
    | blocked b =>
        rw [he] at hacq
        cases hacq
  rcases lockForReadEnter_granted hg with
    ⟨n, -, hf, heq⟩ | ⟨-, hf, hcw, heq⟩ | ⟨hesc, -, heq⟩
  · -- re-entry: the stored count comes back to n after the release
    have hn1 : 1 ≤ n := hvals n hf
    have hrecg : g.bRecursive = true := by
      rw [heq]
      exact hrec
    have hrag : 0 < g.iActiveReaders := by
      rw [heq]
      dsimp only
      omega
    have hfg : hashFind g.hashCurrentReaders t = some (n + 1) := by
      rw [heq]
      exact hashFind_insert_self _ t _
    rw [unlockReadNB_entry hrecg hrag hfg, if_neg (by omega), heq]
    dsimp only
    have e1 : (n + 1 : Int) - 1 = n := by ring
    have e2 : s.iActiveReaders + 1 - 1 = s.iActiveReaders := by ring
    rw [e1, e2, hashInsert_hashInsert, hashInsert_find_self hf]
  · -- promotion: the fresh entry of count 1 is erased again
    have hrecg : g.bRecursive = true := by
      rw [heq]
      exact hrec
    have hrag : 0 < g.iActiveReaders := by
      rw [heq]
      dsimp only
      omega
    have hfg : hashFind g.hashCurrentReaders t = some 1 := by
      rw [heq]
      exact hashFind_insert_self _ t _
    rw [unlockReadNB_entry hrecg hrag hfg, if_pos (by norm_num), heq]
    dsimp only
    have e2 : s.iActiveReaders + 1 - 1 = s.iActiveReaders := by ring
    rw [e2, hashErase_hashInsert 1 hf]
  · -- plain grant in recursive mode: also a fresh entry of count 1
    have hf : hashFind s.hashCurrentReaders t = none := (hesc hrec).1
    rw [finishRead_rec t hrec] at heq
    have hrecg : g.bRecursive = true := by
      rw [heq]
      exact hrec
    have hrag : 0 < g.iActiveReaders := by
      rw [heq]
      dsimp only
      omega
    have hfg : hashFind g.hashCurrentReaders t = some 1 := by
      rw [heq]
      exact hashFind_insert_self _ t _
    rw [unlockReadNB_entry hrecg hrag hfg, if_pos (by norm_num), heq]
    dsimp only
    have e2 : s.iActiveReaders + 1 - 1 = s.iActiveReaders := by ring
    rw [e2, hashErase_hashInsert 1 hf]

/-- The acquire-phase facts are preserved by one granted acquire. -/
theorem readRound_next {s : LockState} {t : ThreadId} {g : LockState}
    (hrec : s.bRecursive = true) (hra : 0 ≤ s.iActiveReaders)
    (hvals : ∀ m, hashFind s.hashCurrentReaders t = some m → 1 ≤ m)
    (hacq : lockForReadNB s t = some g) :
    g.bRecursive = true ∧ 0 ≤ g.iActiveReaders ∧
    (∀ m, hashFind g.hashCurrentReaders t = some m → 1 ≤ m) ∧
    (lockForReadNB g t).isSome = true := by
  have hg : lockForReadEnter s t = .granted g := by
    unfold lockForReadNB at hacq
    cases he : lockForReadEnter s t with
    | granted g2 =>
        rw [he] at hacq
        exact (Option.some.inj hacq) ▸ rfl
    | blocked b =>
        rw [he] at hacq
        cases hacq
  rcases lockForReadEnter_granted hg with
    ⟨n, -, hf, heq⟩ | ⟨-, hf, hcw, heq⟩ | ⟨hesc, -, heq⟩
  · have hn1 : 1 ≤ n := hvals n hf
    have hrecg : g.bRecursive = true := by
      rw [heq]
      exact hrec
    have hrag : 0 ≤ g.iActiveReaders := by
      rw [heq]
      dsimp only
      omega
    have hfg : hashFind g.hashCurrentReaders t = some (n + 1) := by
      rw [heq]
      exact hashFind_insert_self _ t _
    refine ⟨hrecg, hrag, ?_, lockForReadNB_isSome_of_entry hrecg hfg⟩
    intro m hm
    rw [hfg] at hm
    obtain rfl := Option.some.inj hm
    omega
  · have hrecg : g.bRecursive = true := by
      rw [heq]
      exact hrec
    have hrag : 0 ≤ g.iActiveReaders := by
      rw [heq]
      dsimp only
      omega
    have hfg : hashFind g.hashCurrentReaders t = some 1 := by
      rw [heq]
      exact hashFind_insert_self _ t _
    refine ⟨hrecg, hrag, ?_, lockForReadNB_isSome_of_entry hrecg hfg⟩
    intro m hm
    rw [hfg] at hm
    obtain rfl := Option.some.inj hm
    omega
  · rw [finishRead_rec t hrec] at heq
    have hrecg : g.bRecursive = true := by
      rw [heq]
      exact hrec
    have hrag : 0 ≤ g.iActiveReaders := by
      rw [heq]
      dsimp only
      omega
    have hfg : hashFind g.hashCurrentReaders t = some 1 := by
      rw [heq]
      exact hashFind_insert_self _ t _
    refine ⟨hrecg, hrag, ?_, lockForReadNB_isSome_of_entry hrecg hfg⟩
    intro m hm
    rw [hfg] at hm
    obtain rfl := Option.some.inj hm
    omega

/-- k+1 acquires followed by k+1 releases restore the state exactly. -/
theorem readRoundtrip_aux (t : ThreadId) : ∀ (k : Nat) (s : LockState),
    s.bRecursive = true → 0 ≤ s.iActiveReaders →
    (∀ m, hashFind s.hashCurrentReaders t = some m → 1 ≤ m) →
    ∀ g, lockForReadNB s t = some g →
    (acqRead t (k + 1) s).bind (relRead t (k + 1)) = some s := by
  intro k
  induction k with
  | zero =>
      intro s hrec hra hvals g hacq
      show ((lockForReadNB s t).bind (acqRead t 0)).bind (relRead t 1) =
        some s
      rw [hacq]
      show relRead t 1 g = some s
      show (relRead t 0 g).bind (fun g2 => unlockReadNB g2 t) = some s
      show unlockReadNB g t = some s
      exact readRound_id hrec hra hvals hacq
  | succ k ih =>
      intro s hrec hra hvals g hacq
      obtain ⟨hrecg, hrag, hvalsg, hsome⟩ :=
        readRound_next hrec hra hvals hacq
      obtain ⟨g2, hg2⟩ := Option.isSome_iff_exists.mp hsome
      show ((lockForReadNB s t).bind (acqRead t (k + 1))).bind
        (relRead t (k + 2)) = some s
      rw [hacq]
      show (acqRead t (k + 1) g).bind (relRead t (k + 2)) = some s
      have hassoc : (acqRead t (k + 1) g).bind (relRead t (k + 2)) =
          ((acqRead t (k + 1) g).bind (relRead t (k + 1))).bind
            (fun g3 => unlockReadNB g3 t) := by
        rw [Option.bind_assoc]
        rfl
      rw [hassoc, ih g hrecg hrag hvalsg g2 hg2]
      show unlockReadNB g t = some s
      exact readRound_id hrec hra hvals hacq


/-- The promotion example configuration is reachable: thread 1 acquires read
twice on a fresh recursive lock, then promotes to a write hold. -/
theorem promoConfig_reachable : Reachable true promoConfig := by
  have h0 : Reachable true (initConfig true) := Reachable.init true
  have h1 := Reachable.step h0
    (Step.readGranted (initConfig true) 1
      { mkLock true with hashCurrentReaders := [(1, 1)], iActiveReaders := 1 }
      (by decide) rfl (by decide))
  have h2 := Reachable.step h1
    (Step.readGranted _ 1
      { mkLock true with hashCurrentReaders := [(1, 2)], iActiveReaders := 2 }
      (by decide) rfl (by decide))
  exact Reachable.step h2
    (Step.writeGranted _ 1 promoConfig.lock (by decide) rfl (by decide))

/-- The non-recursive writer configuration is reachable: thread 1 acquires
the write lock on a fresh non-recursive lock. -/
theorem nonRecWriterConfig_reachable : Reachable false nonRecWriterConfig :=
  Reachable.step (Reachable.init false)
    (Step.writeGranted (initConfig false) 1 nonRecWriterConfig.lock
      (by decide) rfl (by decide))

/-- C1: in every execution of paired acquire and release calls, no two
distinct threads hold write access at the same time, and while a thread
holds write access every thread holding read access is that same thread
(the promoting writer). -/
theorem mutualExclusion {recursive : Bool} {c : Config}
    (h : Reachable recursive c) :
    (∀ t ∈ c.writers, ∀ u ∈ c.writers, t = u) ∧
    (∀ t ∈ c.writers, ∀ u ∈ c.readers, u = t) :=
  ⟨(reachable_inv h).writersSame, (reachable_inv h).writerReader⟩

/-- C1 witness: the mutual-exclusion theorem applied to the reachable
promotion configuration, in which thread 1 holds both reads and a write. -/
theorem mutualExclusion_witness :
    Reachable true promoConfig ∧ (1 : ThreadId) = 1 :=
  ⟨promoConfig_reachable,
   (mutualExclusion promoConfig_reachable).2 1 (by decide) 1 (by decide)⟩

/-- C6 (amended): in recursive mode, a positive iActiveWriters forces a
non-null currentWriter and a zero iActiveWriters forces the null handle; in
non-recursive mode currentWriter is always the null handle, so there the
first implication of the claim fails. -/
theorem currentWriter_invariant {recursive : Bool} {c : Config}
    (h : Reachable recursive c) :
    (c.lock.bRecursive = true → 0 < c.lock.iActiveWriters →
      c.lock.currentWriter ≠ 0) ∧
    (c.lock.iActiveWriters = 0 → c.lock.currentWriter = 0) ∧
    (c.lock.bRecursive = false → c.lock.currentWriter = 0) := by
  have hI := reachable_inv h
  refine ⟨?_, ?_, hI.cwNonRec⟩
  · intro hrec hw
    have hnil : c.writers ≠ [] := by
      intro hn
      rw [hI.writersLen, hn] at hw
      simp at hw
    obtain ⟨w0, hw0⟩ := List.exists_mem_of_ne_nil c.writers hnil
    rw [hI.cwWriters hrec w0 hw0]
    exact hI.writersNZ w0 hw0
  · intro h0
    apply hI.cwZero
    apply eq_nil_of_length_nonpos
    rw [← hI.writersLen, h0]

/-- C6 witness: the amended invariant applied to the reachable promotion
configuration of a recursive lock. -/
theorem currentWriter_invariant_witness :
    Reachable true promoConfig ∧ promoConfig.lock.currentWriter ≠ 0 :=
  ⟨promoConfig_reachable,
   (currentWriter_invariant promoConfig_reachable).1 rfl (by decide)⟩

/-- C6 counterexample: on a non-recursive lock, one paired acquireWrite
reaches a state with iActiveWriters = 1 while currentWriter is still the
null handle, refuting the claim for non-recursive mode. -/
theorem currentWriter_invariant_cex :
    Reachable false nonRecWriterConfig ∧
    0 < nonRecWriterConfig.lock.iActiveWriters ∧
    nonRecWriterConfig.lock.currentWriter = 0 :=
  ⟨nonRecWriterConfig_reachable, by decide, rfl⟩


/-- C2 counterexample: on a non-recursive lock a writer leaving the wait
loop does not set currentWriter to the caller; the null handle is stored
(the local self is computed only in recursive mode). -/
theorem acquireWrite_currentWriter_cex :
    lockForWriteWake { mkLock false with iWaitingWriters := 1 } 1 0 =
      .granted { mkLock false with iActiveWriters := 1 } ∧
    ({ mkLock false with iActiveWriters := 1 } : LockState).currentWriter
      = 0 ∧
    (1 : ThreadId) ≠ 0 :=
  ⟨by decide, rfl, by decide⟩

/-- C2 (amended): acquireWrite blocks exactly while iActiveWriters > 0 or
iActiveReaders exceeds the iRemainingReaders computed at entry (the count
recorded for the caller, 0 with no entry or in non-recursive mode); a
recursive caller equal to currentWriter just increments iActiveWriters; on
exit from the wait iActiveWriters is incremented and currentWriter receives
the caller in recursive mode and the null handle in non-recursive mode; a
woken writer whose guard is false is granted without waiting on its own
read holds. -/
theorem acquireWrite_spec (s : LockState) (t : ThreadId) :
    (s.bRecursive = false → ownReaders s t = 0) ∧
    (∀ n, s.bRecursive = true → hashFind s.hashCurrentReaders t = some n →
      ownReaders s t = n) ∧
    (s.bRecursive = true → hashFind s.hashCurrentReaders t = none →
      ownReaders s t = 0) ∧
    (s.bRecursive = true → s.currentWriter = t →
      lockForWriteEnter s t =
        .granted { s with iActiveWriters := s.iActiveWriters + 1 }) ∧
    (¬ (s.bRecursive = true ∧ s.currentWriter = t) →
      ((0 < s.iActiveWriters ∨ ownReaders s t < s.iActiveReaders) →
        lockForWriteEnter s t =
          .blocked { s with iWaitingWriters := s.iWaitingWriters + 1 }
            (ownReaders s t)) ∧
      (¬ (0 < s.iActiveWriters ∨ ownReaders s t < s.iActiveReaders) →
        lockForWriteEnter s t =
          .granted { s with
            currentWriter := if s.bRecursive then t else 0
            iActiveWriters := s.iActiveWriters + 1 })) ∧
    (∀ rem : Int,
      ((0 < s.iActiveWriters ∨ rem < s.iActiveReaders) →
        lockForWriteWake s t rem = .blocked s rem) ∧
      (¬ (0 < s.iActiveWriters ∨ rem < s.iActiveReaders) →
        lockForWriteWake s t rem =
          .granted { s with
            currentWriter := if s.bRecursive then t else 0
            iActiveWriters := s.iActiveWriters + 1
            iWaitingWriters := s.iWaitingWriters - 1 })) := by
  refine ⟨?_, ?_, ?_, ?_, ?_, ?_⟩
  · intro hnr
    exact ownReaders_nonrec hnr t
  · intro n hrec hf
    unfold ownReaders
    rw [if_pos hrec, hf]
    rfl
  · intro hrec hf
    unfold ownReaders
    rw [if_pos hrec, hf]
    rfl
  · intro hrec hcw
    unfold lockForWriteEnter
    rw [if_pos ⟨hrec, hcw⟩]
  · intro hnrw
    constructor
    · intro hg
      have hg2 : writeGuard s (ownReaders s t) := hg
      simp only [lockForWriteEnter]
      rw [if_neg hnrw, if_pos hg2]
    · intro hg
      have hg2 : ¬ writeGuard s (ownReaders s t) := hg
      simp only [lockForWriteEnter]
      rw [if_neg hnrw, if_neg hg2]
      rfl
  · intro rem
    constructor
    · intro hg
      unfold lockForWriteWake
      rw [if_pos ((writeGuard_update_ww s _ rem).mpr hg)]
      have h1 : s.iWaitingWriters - 1 + 1 = s.iWaitingWriters := by omega
      rw [h1]
    · intro hg
      unfold lockForWriteWake
      rw [if_neg (fun hc => hg ((writeGuard_update_ww s _ rem).mp hc))]
      rfl

/-- C2 witness: on a promotion state the writer is granted without waiting
(both other readers drained, only its own two holds remain). -/
theorem acquireWrite_spec_witness :
    lockForWriteEnter
      { mkLock true with
        hashCurrentReaders := [(1, 2)]
        iActiveReaders := 2 } 1 =
    .granted
      { mkLock true with
        hashCurrentReaders := [(1, 2)]
        iActiveReaders := 2
        currentWriter := 1
        iActiveWriters := 1 } :=
  ((acquireWrite_spec
    { mkLock true with hashCurrentReaders := [(1, 2)], iActiveReaders := 2 }
    1).2.2.2.2.1 (by decide)).2 (by decide)

/-- C3: for a thread with no recorded hold that is not the current writer,
acquireRead blocks exactly while iActiveWriters > 0 or iWaitingWriters > 0
(a waiting writer blocks new readers), incrementing iWaitingReaders before
each wait and decrementing it after each wake with the guard re-tested;
only when the guard is false is iActiveReaders incremented, with the
per-thread hold recorded as 1 in recursive mode. -/
theorem acquireRead_blocking_spec (s : LockState) (t : ThreadId)
    (hpre : s.bRecursive = true →
      hashFind s.hashCurrentReaders t = none ∧ s.currentWriter ≠ t) :
    ((0 < s.iActiveWriters ∨ 0 < s.iWaitingWriters) →
      lockForReadEnter s t =
        .blocked { s with iWaitingReaders := s.iWaitingReaders + 1 }) ∧
    (¬ (0 < s.iActiveWriters ∨ 0 < s.iWaitingWriters) →
      lockForReadEnter s t = .granted (finishRead s t)) ∧
    ((0 < s.iActiveWriters ∨ 0 < s.iWaitingWriters) →
      lockForReadWake s t = .blocked s) ∧
    (¬ (0 < s.iActiveWriters ∨ 0 < s.iWaitingWriters) →
      lockForReadWake s t =
        .granted (finishRead
          { s with iWaitingReaders := s.iWaitingReaders - 1 } t)) ∧
    (finishRead s t).iActiveReaders = s.iActiveReaders + 1 ∧
    (s.bRecursive = true →
      hashFind (finishRead s t).hashCurrentReaders t = some 1) := by
  refine ⟨?_, ?_, ?_, ?_, finishRead_iActiveReaders s t, ?_⟩
  · intro hg
    have hg2 : readGuard s := hg
    unfold lockForReadEnter
    by_cases hrec : s.bRecursive = true
    · rw [if_pos hrec, (hpre hrec).1, if_neg (hpre hrec).2, if_pos hg2]
    · rw [if_neg hrec, if_pos hg2]
  · intro hg
    have hg2 : ¬ readGuard s := hg
    unfold lockForReadEnter
    by_cases hrec : s.bRecursive = true
    · rw [if_pos hrec, (hpre hrec).1, if_neg (hpre hrec).2, if_neg hg2]
    · rw [if_neg hrec, if_neg hg2]
  · intro hg
    unfold lockForReadWake
    rw [if_pos ((readGuard_update_wr s _).mpr hg)]
    have h1 : s.iWaitingReaders - 1 + 1 = s.iWaitingReaders := by omega
    rw [h1]
  · intro hg
    unfold lockForReadWake
    rw [if_neg (fun hc => hg ((readGuard_update_wr s _).mp hc))]
  · intro hrec
    rw [finishRead_hash, if_pos hrec]
    exact hashFind_insert_self _ t _

/-- C3 witness: on a non-recursive lock with one waiting writer, a new
reader blocks and iWaitingReaders is incremented. -/
theorem acquireRead_blocking_spec_witness :
    lockForReadEnter { mkLock false with iWaitingWriters := 1 } 2 =
      .blocked { mkLock false with
        iWaitingWriters := 1
        iWaitingReaders := 1 } :=
  (acquireRead_blocking_spec { mkLock false with iWaitingWriters := 1 } 2
    (by decide)).1 (by decide)

/-- C4: in recursive mode acquireRead grants immediately, with no test of
the wait guard and hence even while writers wait: a thread with an entry
has the entry and iActiveReaders incremented, and the current writer with
no entry has a fresh entry of count 1 inserted and iActiveReaders
incremented. -/
theorem acquireRead_recursive_escapes (s : LockState) (t : ThreadId)
    (hrec : s.bRecursive = true) :
    (∀ n, hashFind s.hashCurrentReaders t = some n →
      lockForReadEnter s t =
        .granted { s with
          hashCurrentReaders := hashInsert s.hashCurrentReaders t (n + 1)
          iActiveReaders := s.iActiveReaders + 1 }) ∧
    (hashFind s.hashCurrentReaders t = none → s.currentWriter = t →
      lockForReadEnter s t =
        .granted { s with
          hashCurrentReaders := hashInsert s.hashCurrentReaders t 1
          iActiveReaders := s.iActiveReaders + 1 }) := by
  constructor
  · intro n hf
    unfold lockForReadEnter
    rw [if_pos hrec, hf]
  · intro hf hcw
    unfold lockForReadEnter
    rw [if_pos hrec, hf, if_pos hcw]

/-- C4 witness: a re-entering reader is granted at once although a writer
is waiting. -/
theorem acquireRead_recursive_escapes_witness :
    lockForReadEnter
      { mkLock true with
        hashCurrentReaders := [(1, 1)]
        iActiveReaders := 1
        iWaitingWriters := 1 } 1 =
    .granted
      { mkLock true with
        hashCurrentReaders := [(1, 2)]
        iActiveReaders := 2
        iWaitingWriters := 1 } :=
  (acquireRead_recursive_escapes
    { mkLock true with
      hashCurrentReaders := [(1, 1)]
      iActiveReaders := 1
      iWaitingWriters := 1 } 1 rfl).1 1 (by decide)


/-- C5: the wake policy runs on a release exactly when the lock has become
completely free, and then wakes one blocked writer if a writer is waiting,
else wakes all blocked readers if a reader is waiting, else nobody. -/
theorem wakePolicy_spec (s : LockState) (t : ThreadId) :
    (∀ g a, unlockRead s t = some (g, some a) →
      (g.iActiveReaders = 0 ∧ g.iActiveWriters = 0) ∧ a = wakeUp g) ∧
    (∀ g, unlockRead s t = some (g, none) →
      ¬ (g.iActiveReaders = 0 ∧ g.iActiveWriters = 0)) ∧
    (∀ g a, unlockWrite s t = some (g, some a) →
      (g.iActiveReaders = 0 ∧ g.iActiveWriters = 0) ∧ a = wakeUp g) ∧
    (∀ g, unlockWrite s t = some (g, none) →
      ¬ (g.iActiveReaders = 0 ∧ g.iActiveWriters = 0)) ∧
    (0 ≤ s.iWaitingReaders → 0 ≤ s.iWaitingWriters →
      ((wakeUp s = .wakeOneWriter ↔ 0 < s.iWaitingWriters) ∧
       (wakeUp s = .wakeAllReaders ↔
         s.iWaitingWriters = 0 ∧ 0 < s.iWaitingReaders) ∧
       (wakeUp s = .wakeNone ↔
         s.iWaitingWriters = 0 ∧ s.iWaitingReaders = 0))) := by
  refine ⟨?_, ?_, ?_, ?_, ?_⟩
  · intro g a h
    unfold unlockRead at h
    by_cases hr : 0 < s.iActiveReaders
    · rw [if_pos hr] at h
      obtain ⟨hsh, he⟩ := readRelHash_eq s t
      rw [he] at h
      unfold unlockFinish at h
      split at h
      · simp only [Option.some.injEq, Prod.mk.injEq] at h
        obtain ⟨h1, h2⟩ := h
        subst h1
        refine ⟨by assumption, h2.symm⟩
      · simp only [Option.some.injEq, Prod.mk.injEq] at h
        cases h.2
    · rw [if_neg hr] at h
      cases h
  · intro g h
    unfold unlockRead at h
    by_cases hr : 0 < s.iActiveReaders
    · rw [if_pos hr] at h
      obtain ⟨hsh, he⟩ := readRelHash_eq s t
      rw [he] at h
      unfold unlockFinish at h
      split at h
      · simp only [Option.some.injEq, Prod.mk.injEq] at h
        cases h.2
      · simp only [Option.some.injEq, Prod.mk.injEq] at h
        obtain ⟨h1, -⟩ := h
        subst h1
        assumption
    · rw [if_neg hr] at h
      cases h
  · intro g a h
    unfold unlockWrite at h
    by_cases hw : 0 < s.iActiveWriters
    · rw [if_pos hw] at h
      by_cases hz : (decWriters s).iActiveWriters = 0
      · rw [if_pos hz] at h
        by_cases h0 : (clearWriter (decWriters s)).iActiveReaders = 0
        · rw [if_pos h0] at h
          simp only [Option.some.injEq, Prod.mk.injEq] at h
          obtain ⟨h1, h2⟩ := h
          subst h1
          exact ⟨⟨h0, hz⟩, h2.symm⟩
        · rw [if_neg h0] at h
          simp only [Option.some.injEq, Prod.mk.injEq] at h
          cases h.2
      · rw [if_neg hz] at h
        simp only [Option.some.injEq, Prod.mk.injEq] at h
        cases h.2
    · rw [if_neg hw] at h
      cases h
  · intro g h
    unfold unlockWrite at h
    by_cases hw : 0 < s.iActiveWriters
    · rw [if_pos hw] at h
      by_cases hz : (decWriters s).iActiveWriters = 0
      · rw [if_pos hz] at h
        by_cases h0 : (clearWriter (decWriters s)).iActiveReaders = 0
        · rw [if_pos h0] at h
          simp only [Option.some.injEq, Prod.mk.injEq] at h
          cases h.2
        · rw [if_neg h0] at h
          simp only [Option.some.injEq, Prod.mk.injEq] at h
          obtain ⟨h1, -⟩ := h
          subst h1
          intro hcon
          exact h0 hcon.1
      · rw [if_neg hz] at h
        simp only [Option.some.injEq, Prod.mk.injEq] at h
        obtain ⟨h1, -⟩ := h
        subst h1
        intro hcon
        exact hz hcon.2
    · rw [if_neg hw] at h
      cases h
  · intro hwr hww
    unfold wakeUp
    by_cases h1 : s.iWaitingWriters ≠ 0
    · rw [if_pos h1]
      refine ⟨⟨fun _ => by omega, fun _ => rfl⟩, ⟨?_, ?_⟩, ⟨?_, ?_⟩⟩
      · intro hcon
        cases hcon
      · rintro ⟨ha, -⟩
        exact absurd ha h1
      · intro hcon
        cases hcon
      · rintro ⟨ha, -⟩
        exact absurd ha h1
    · rw [if_neg h1]
      by_cases h2 : s.iWaitingReaders ≠ 0
      · rw [if_pos h2]
        refine ⟨⟨?_, ?_⟩, ⟨fun _ => ⟨by omega, by omega⟩, fun _ => rfl⟩,
          ⟨?_, ?_⟩⟩
        · intro hcon
          cases hcon
        · intro hpos
          omega
        · intro hcon
          cases hcon
        · rintro ⟨-, hb⟩
          exact absurd hb h2
      · rw [if_neg h2]
        refine ⟨⟨?_, ?_⟩, ⟨?_, ?_⟩, ⟨fun _ => ⟨by omega, by omega⟩,
          fun _ => rfl⟩⟩
        · intro hcon
          cases hcon
        · intro hpos
          omega
        · intro hcon
          cases hcon
        · rintro ⟨-, hb⟩
          exact absurd (by omega : s.iWaitingReaders ≠ 0) h2

/-- C5 witness: releasing the only read hold with two readers blocked and
no writer waiting wakes all readers. -/
theorem wakePolicy_spec_witness :
    (({ mkLock true with iWaitingReaders := 2 } : LockState).iActiveReaders
        = 0 ∧
      ({ mkLock true with iWaitingReaders := 2 } :
        LockState).iActiveWriters = 0) ∧
    WakeAction.wakeAllReaders =
      wakeUp { mkLock true with iWaitingReaders := 2 } :=
  (wakePolicy_spec
    { mkLock true with iActiveReaders := 1, iWaitingReaders := 2 } 9).1
    { mkLock true with iWaitingReaders := 2 } .wakeAllReaders (by decide)

/-- C7 counterexample: on the recursive lock where only thread 1 holds a
read, unlockRead by thread 2 (which holds nothing) is not reported as a
precondition failure; it succeeds and mutates the shared state. -/
theorem release_precondition_cex :
    hashFind oneReaderLock.hashCurrentReaders 2 = none ∧
    unlockRead oneReaderLock 2 =
      some ({ oneReaderLock with iActiveReaders := 0 }, some .wakeNone) ∧
    ({ oneReaderLock with iActiveReaders := 0 } : LockState) ≠
      oneReaderLock :=
  ⟨rfl, by decide, by decide⟩

/-- C7 (amended): the release precondition is the global counter, not the
identity of the caller: when iActiveReaders (iActiveWriters) is not
positive the violation is reported before any mutation and the state is
untouched, so the counters are never decremented below zero; a release by a
thread without a matching hold while the counter is positive is not
detected. -/
theorem release_precondition_spec (s : LockState) (t : ThreadId) :
    (s.iActiveReaders ≤ 0 → unlockRead s t = none) ∧
    (s.iActiveWriters ≤ 0 → unlockWrite s t = none) ∧
    (∀ g a, unlockRead s t = some (g, a) →
      0 < s.iActiveReaders ∧ g.iActiveReaders = s.iActiveReaders - 1 ∧
      0 ≤ g.iActiveReaders) ∧
    (∀ g a, unlockWrite s t = some (g, a) →
      0 < s.iActiveWriters ∧ g.iActiveWriters = s.iActiveWriters - 1 ∧
      0 ≤ g.iActiveWriters) := by
  refine ⟨?_, ?_, ?_, ?_⟩
  · intro hr
    unfold unlockRead
    rw [if_neg (by omega)]
  · intro hw
    unfold unlockWrite
    rw [if_neg (by omega)]
  · intro g a h
    obtain ⟨hr, rfl⟩ := unlockRead_some h
    refine ⟨hr, rfl, ?_⟩
    dsimp only
    omega
  · intro g a h
    obtain ⟨hw, rfl⟩ := unlockWrite_some h
    refine ⟨hw, rfl, ?_⟩
    dsimp only
    omega

/-- C7 witness: releasing a fresh lock is reported, nothing is mutated. -/
theorem release_precondition_spec_witness :
    unlockRead (mkLock true) 3 = none :=
  (release_precondition_spec (mkLock true) 3).1 (by decide)

/-- C8: on a recursive lock, a thread that acquires read N times and then
releases read N times, with no interleaved operations, returns the lock
state - counters, writer, waiting counts and the per-thread table - to
exactly the state before the first acquire; the entry of the thread is
removed when its count reaches zero. -/
theorem readReentrancy_roundtrip (s : LockState) (t : ThreadId) (N : Nat)
    (hrec : s.bRecursive = true) (hN : 1 ≤ N) (hra : 0 ≤ s.iActiveReaders)
    (hvals : ∀ m, hashFind s.hashCurrentReaders t = some m → 1 ≤ m)
    (hfirst : (lockForReadNB s t).isSome = true) :
    (acqRead t N s).bind (relRead t N) = some s := by
  obtain ⟨k, rfl⟩ : ∃ k, N = k + 1 := ⟨N - 1, by omega⟩
  obtain ⟨g, hg⟩ := Option.isSome_iff_exists.mp hfirst
  exact readRoundtrip_aux t k s hrec hra hvals g hg

/-- C8 witness: two acquires followed by two releases on a fresh recursive
lock restore the initial state exactly. -/
theorem readReentrancy_roundtrip_witness :
    (acqRead 1 2 (mkLock true)).bind (relRead 1 2) = some (mkLock true) :=
  readReentrancy_roundtrip (mkLock true) 1 2 rfl (by decide) (by decide)
    (fun m hm => Option.noConfusion hm) (by decide)

/-- C9: write-lock promotion does not touch the read state: lockForWrite
and unlockWrite never change the hash of per-thread read holds,
iActiveReaders, or iWaitingReaders (the blocked path changes only
iWaitingWriters, rebalanced on wake); after acquiring and releasing the
write hold, the promoting thread still has its original entry and
iActiveReaders is unchanged. -/
theorem writePromotion_frame (s : LockState) (t : ThreadId) :
    (∀ g, lockForWriteEnter s t = .granted g →
      g.hashCurrentReaders = s.hashCurrentReaders ∧
      g.iActiveReaders = s.iActiveReaders ∧
      g.iWaitingReaders = s.iWaitingReaders ∧
      g.iWaitingWriters = s.iWaitingWriters ∧ g.bRecursive = s.bRecursive) ∧
    (∀ b rem, lockForWriteEnter s t = .blocked b rem →
      b.hashCurrentReaders = s.hashCurrentReaders ∧
      b.iActiveReaders = s.iActiveReaders ∧
      b.iWaitingReaders = s.iWaitingReaders ∧
      b.iWaitingWriters = s.iWaitingWriters + 1) ∧
    (∀ rem g, lockForWriteWake s t rem = .granted g →
      g.hashCurrentReaders = s.hashCurrentReaders ∧
      g.iActiveReaders = s.iActiveReaders ∧
      g.iWaitingReaders = s.iWaitingReaders ∧
      g.iWaitingWriters = s.iWaitingWriters - 1) ∧
    (∀ g a, unlockWrite s t = some (g, a) →
      g.hashCurrentReaders = s.hashCurrentReaders ∧
      g.iActiveReaders = s.iActiveReaders ∧
      g.iWaitingReaders = s.iWaitingReaders ∧
      g.iWaitingWriters = s.iWaitingWriters ∧ g.bRecursive = s.bRecursive) ∧
    (∀ n g g2 a, s.bRecursive = true →
      hashFind s.hashCurrentReaders t = some n →
      lockForWriteEnter s t = .granted g → unlockWrite g t = some (g2, a) →
      hashFind g2.hashCurrentReaders t = some n ∧
      g2.iActiveReaders = s.iActiveReaders) := by
  have henter : ∀ g, lockForWriteEnter s t = .granted g →
      g.hashCurrentReaders = s.hashCurrentReaders ∧
      g.iActiveReaders = s.iActiveReaders ∧
      g.iWaitingReaders = s.iWaitingReaders ∧
      g.iWaitingWriters = s.iWaitingWriters ∧
      g.bRecursive = s.bRecursive := by
    intro g h
    rcases lockForWriteEnter_granted h with ⟨-, -, rfl⟩ | ⟨-, -, rfl⟩
    · exact ⟨rfl, rfl, rfl, rfl, rfl⟩
    · exact ⟨rfl, rfl, rfl, rfl, rfl⟩
  have hrel : ∀ g a, unlockWrite s t = some (g, a) →
      g.hashCurrentReaders = s.hashCurrentReaders ∧
      g.iActiveReaders = s.iActiveReaders ∧
      g.iWaitingReaders = s.iWaitingReaders ∧
      g.iWaitingWriters = s.iWaitingWriters ∧
      g.bRecursive = s.bRecursive := by
    intro g a h
    obtain ⟨-, rfl⟩ := unlockWrite_some h
    exact ⟨rfl, rfl, rfl, rfl, rfl⟩
  refine ⟨henter, ?_, ?_, hrel, ?_⟩
  · intro b rem h
    obtain ⟨-, -, -, rfl⟩ := lockForWriteEnter_blocked h
    exact ⟨rfl, rfl, rfl, rfl⟩
  · intro rem g h
    obtain ⟨-, rfl⟩ := lockForWriteWake_granted h
    exact ⟨rfl, rfl, rfl, rfl⟩
  · intro n g g2 a hrec hf hent hrl
    obtain ⟨hh, hra, -, -, -⟩ := henter g hent
    obtain ⟨-, rfl⟩ := unlockWrite_some hrl
    refine ⟨?_, ?_⟩
    · show hashFind g.hashCurrentReaders t = some n
      rw [hh]
      exact hf
    · show g.iActiveReaders = s.iActiveReaders
      exact hra

/-- C9 witness: thread 1 with two read holds promotes to a write hold and
releases it; its entry and iActiveReaders are untouched. -/
theorem writePromotion_frame_witness :
    hashFind [(1, 2)] 1 = some 2 ∧
    ({ mkLock true with
      hashCurrentReaders := [(1, 2)]
      iActiveReaders := 2 } : LockState).iActiveReaders = 2 :=
  (writePromotion_frame
    { mkLock true with hashCurrentReaders := [(1, 2)], iActiveReaders := 2 }
    1).2.2.2.2 2
    { mkLock true with
      hashCurrentReaders := [(1, 2)]
      iActiveReaders := 2
      currentWriter := 1
      iActiveWriters := 1 }
    { mkLock true with hashCurrentReaders := [(1, 2)], iActiveReaders := 2 }
    none rfl (by decide) (by decide) (by decide)

/-- C10: the release operations validate only the global counters, never
the identity of the caller: unlockWrite ignores the calling thread
entirely and decrements for any caller; in recursive mode unlockRead by a
thread with no entry still decrements iActiveReaders and leaves the table
unchanged, so iActiveReaders can drop below the sum of the per-thread hold
counts, as the concrete misuse of oneReaderLock by thread 2 shows. -/
theorem release_ignores_identity (s : LockState) (t u : ThreadId) :
    unlockWrite s t = unlockWrite s u ∧
    (0 < s.iActiveWriters → s.currentWriter ≠ t →
      (unlockWrite s t).isSome = true) ∧
    (∀ g a, s.bRecursive = true → hashFind s.hashCurrentReaders t = none →
      unlockRead s t = some (g, a) →
      g.hashCurrentReaders = s.hashCurrentReaders ∧
      g.iActiveReaders = s.iActiveReaders - 1) ∧
    (unlockRead oneReaderLock 2 =
      some ({ oneReaderLock with iActiveReaders := 0 }, some .wakeNone) ∧
     hashSum ({ oneReaderLock with iActiveReaders := 0 } :
       LockState).hashCurrentReaders = 1 ∧
     ({ oneReaderLock with iActiveReaders := 0 } :
       LockState).iActiveReaders = 0) := by
  refine ⟨rfl, ?_, ?_, by decide, by decide, by decide⟩
  · intro hw hcw
    unfold unlockWrite
    rw [if_pos hw]
    by_cases hz : (decWriters s).iActiveWriters = 0
    · rw [if_pos hz]
      by_cases h0 : (clearWriter (decWriters s)).iActiveReaders = 0
      · rw [if_pos h0]
        rfl
      · rw [if_neg h0]
        rfl
    · rw [if_neg hz]
      rfl
  · intro g a hrec hf h
    obtain ⟨hr, rfl⟩ := unlockRead_some h
    rw [readRelHash_id (Or.inr hf)]
    exact ⟨rfl, rfl⟩

/-- C10 witness: unlockWrite succeeds for a caller distinct from
currentWriter. -/
theorem release_ignores_identity_witness :
    (unlockWrite
      { mkLock true with currentWriter := 1, iActiveWriters := 1 }
      2).isSome = true :=
  (release_ignores_identity
    { mkLock true with currentWriter := 1, iActiveWriters := 1 } 2 7).2.1
    (by decide) (by decide)


end PiiRW
